import Mathlib

/-!
Verification of the BPE tokenizer editor core (repository
`malibayram/bpe-tokenizer-editor`).  The Rust core of the editor is not
shipped in the repository (only the Python binding surface, an example
script and the test-suite are); the definitions below are therefore a
shallow embedding of the core, modelled from the specification, and the
claims about the editor are settled against this model.
-/

namespace BPEEdit

/-- Modelled from the spec: a token is a non-empty byte string, treated as an
uninterpreted sequence with byte-exact equality.  We embed tokens as lists of
characters, one entry per byte/atom. -/
abbrev Token := List Char

/-- Modelled from the spec: a minimal JSON value tree, used for the parts of a
tokenizer document that the editor passes through verbatim and for the
serialisation round-trip.  Working at the tree level quotients out the
non-semantic string formatting of real JSON text. -/
inductive Json where
  | null : Json
  | bool (b : Bool) : Json
  | num (n : Int) : Json
  | str (s : String) : Json
  | arr (xs : List Json) : Json
  | obj (fields : List (String × Json)) : Json

/-- Lookup of a field of a JSON object (first occurrence of the key wins). -/
def jlookup (fields : List (String × Json)) (k : String) : Option Json :=
  match fields with
  | [] => none
  | f :: rest => if f.1 = k then some f.2 else jlookup rest k

/-- Modelled from the spec: the in-memory editor state.  `vocab` is the
token ↦ id map, `merges` the ordered merge table (position = priority);
`model_extra` are the fields of the `model` subtree other than `vocab` and
`merges`, and `top_extra` the top-level fields other than `model`, both
retained verbatim for round-trip fidelity. -/
structure Editor where
  vocab : List (Token × Nat)
  merges : List (Token × Token)
  model_extra : List (String × Json)
  top_extra : List (String × Json)

/-- Association-list lookup of a token's id in the vocabulary. -/
def lookup_tok (v : List (Token × Nat)) (t : Token) : Option Nat :=
  match v with
  | [] => none
  | kv :: rest => if kv.1 = t then some kv.2 else lookup_tok rest t

/-- Boolean membership of a token in a list of tokens. -/
def mem_tok (x : Token) (l : List Token) : Bool :=
  l.any (fun y => decide (y = x))

/-- Modelled from the spec: `has(token)` of the vocabulary index. -/
def has_token (e : Editor) (t : Token) : Bool :=
  (lookup_tok e.vocab t).isSome

/-- Boolean test whether id `n` is currently assigned in the vocabulary. -/
def id_used (v : List (Token × Nat)) (n : Nat) : Bool :=
  v.any (fun kv => decide (kv.2 = n))

/-- Scan upwards from candidate id `cand` for the first id not currently
used, with explicit fuel. -/
def fresh_aux (v : List (Token × Nat)) : Nat → Nat → Nat
  | 0, cand => cand
  | fuel + 1, cand => if id_used v cand then fresh_aux v fuel (cand + 1) else cand

/-- Modelled from the spec: id allocation policy — the smallest positive
integer not currently used as an id in the vocabulary. -/
def fresh_id (v : List (Token × Nat)) : Nat :=
  fresh_aux v (v.length + 1) 1

/-- Insert a token with a freshly allocated id, as a no-op when the token is
already present.  Every insertion performed by the engine goes through this
primitive. -/
def insert_if_absent (e : Editor) (t : Token) : Editor :=
  if has_token e t then e
  else { e with vocab := e.vocab ++ [(t, fresh_id e.vocab)] }

/-- Append a merge rule at the end of the merge table (lowest priority). -/
def append_merge (e : Editor) (l r : Token) : Editor :=
  { e with merges := e.merges ++ [(l, r)] }

/-- Modelled from the spec: result of `add_token`. -/
structure AdditionResult where
  added : Bool
  method : String
  added_merges : List (Token × Token)

/-- Modelled from the spec: result of `remove_token`. -/
structure RemovalResult where
  root_token : Token
  removed_tokens : List Token

/-- Modelled from the spec: result of `shrink`. -/
structure ShrinkResult where
  initial_vocab_size : Nat
  final_vocab_size : Nat
  removed_roots : List Token
  total_removed : Nat

/-- Modelled from the spec: result of `validate_merges`. -/
structure ValidationResult where
  valid_count : Nat
  invalid_count : Nat
  invalid_merges : List (Nat × Token × Token)

/-- A merge is valid when its left operand, right operand and concatenation
are all in the vocabulary. -/
def merge_ok (e : Editor) (m : Token × Token) : Bool :=
  has_token e m.1 && has_token e m.2 && has_token e (m.1 ++ m.2)

/-- Pair each list element with its position, starting at `i`. -/
def with_idx (i : Nat) : List α → List (Nat × α)
  | [] => []
  | a :: as => (i, a) :: with_idx (i + 1) as

/-- Modelled from the spec: the validator — reports per-merge validity by
checking all three endpoints are in vocab; does not mutate. -/
def validate_merges (e : Editor) : ValidationResult :=
  let bad := (with_idx 0 e.merges).filter (fun p => !merge_ok e p.2)
  { valid_count := e.merges.length - bad.length
  , invalid_count := bad.length
  , invalid_merges := bad.map (fun p => (p.1, p.2.1, p.2.2)) }

/-- The invariant that every merge's three endpoints are in vocab. -/
def MergesValid (e : Editor) : Prop :=
  ∀ m ∈ e.merges, merge_ok e m = true

/-- Length of the longest proper prefix of `t` that is present in the
vocabulary (`0` when no non-empty proper prefix is present). -/
def best_pref_len (e : Editor) (t : Token) : Nat :=
  ((List.range t.length).filter
    (fun i => decide (0 < i) && has_token e (t.take i))).foldr Nat.max 0

/-- Insert every character of `t` as a single-character token, skipping those
already present. -/
def insert_chars (e : Editor) (cs : List Char) : Editor :=
  cs.foldl (fun acc c => insert_if_absent acc [c]) e

/-- List of consecutive indices `[i, i+1, …, i+n-1]`. -/
def idx_list (i : Nat) : Nat → List Nat
  | 0 => []
  | n + 1 => i :: idx_list (i + 1) n

/-- Modelled from the spec: one step of the `char_chain` strategy at index
`i` — insert the intermediate `t.take (i+1)` with a fresh id and then append
the merge `(t.take i, t[i:i+1])`; iterated over the given indices. -/
def chain_steps (t : Token) (e : Editor) : List Nat → Editor × List (Token × Token)
  | [] => (e, [])
  | i :: rest =>
    let e1 := insert_if_absent e (t.take (i + 1))
    let e2 := append_merge e1 (t.take i) ((t.drop i).take 1)
    let r := chain_steps t e2 rest
    (r.1, (t.take i, (t.drop i).take 1) :: r.2)

/-- Modelled from the spec: the `char_chain` addition strategy — materialise
every byte of `t` as a single-char token, then build the left-associative
chain of merges for `i = 1 .. |t|-1`. -/
def char_chain (e : Editor) (t : Token) : Editor × AdditionResult :=
  let e1 := insert_chars e t
  let r := chain_steps t e1 (idx_list 1 (t.length - 1))
  (r.1, ⟨true, "char_chain", r.2⟩)

/-- Modelled from the spec: the addition engine `add_token` — first
applicable branch wins among `already_exists`, `single_char`,
`longest_prefix` (with the single-char-suffix refinement) and `char_chain`;
appended merges go to the end of the merge table. -/
def add_token (e : Editor) (t : Token) : Editor × AdditionResult :=
  if has_token e t then (e, ⟨false, "already_exists", []⟩)
  else if t.length = 1 then (insert_if_absent e t, ⟨true, "single_char", []⟩)
  else
    let k := best_pref_len e t
    if 0 < k then
      let p := t.take k
      let s := t.drop k
      if has_token e s then
        (append_merge (insert_if_absent e t) p s, ⟨true, "longest_prefix", [(p, s)]⟩)
      else if s.length = 1 then
        (append_merge (insert_if_absent (insert_if_absent e s) t) p s,
         ⟨true, "longest_prefix", [(p, s)]⟩)
      else char_chain e t
    else char_chain e t

/-- Modelled from the spec: `add_token_atomic` — insert `t` into vocab only
if absent, never add merges, return `true` on insert and `false` if
present. -/
def add_token_atomic (e : Editor) (t : Token) : Editor × Bool :=
  if has_token e t then (e, false)
  else ({ e with vocab := e.vocab ++ [(t, fresh_id e.vocab)] }, true)

/-- Modelled from the spec: batch addition, applying `add_token` to each
token in order. -/
def add_tokens (e : Editor) : List Token → Editor × List AdditionResult
  | [] => (e, [])
  | t :: rest =>
    let r := add_token e t
    let rr := add_tokens r.1 rest
    (rr.1, r.2 :: rr.2)

/-- One pass of the reachability closure: for every merge whose left or right
operand is already in the set, add its result (concatenation) unless already
present. -/
def reach_step (ms : List (Token × Token)) (s : List Token) : List Token :=
  ms.foldl
    (fun acc m =>
      if (mem_tok m.1 acc || mem_tok m.2 acc) && !mem_tok (m.1 ++ m.2) acc
      then acc ++ [m.1 ++ m.2] else acc)
    s

/-- Iterate `reach_step` until a fixpoint is reached (fuel-bounded). -/
def reach_aux : Nat → List (Token × Token) → List Token → List Token
  | 0, _, s => s
  | fuel + 1, ms, s =>
    let s' := reach_step ms s
    if s'.length = s.length then s else reach_aux fuel ms s'

/-- Modelled from the spec: `Reach(R)` — the set of tokens transitively
reachable from the seed set through the dependency DAG, computed as a BFS
closure over the merge table. -/
def reach (ms : List (Token × Token)) (s : List Token) : List Token :=
  reach_aux (ms.length + 1) ms s

/-- Modelled from the spec: cascade removal — compute `Reach(R)`, drop every
reached token from vocab, drop every merge that references a reached token
in any of its three roles; a no-op producing no result when `R` is not in
vocab. -/
def remove_token (e : Editor) (t : Token) : Editor × Option RemovalResult :=
  if has_token e t then
    let removed := reach e.merges [t]
    ({ e with
        vocab := e.vocab.filter (fun kv => !mem_tok kv.1 removed)
      , merges := e.merges.filter
          (fun m => !(mem_tok m.1 removed || mem_tok m.2 removed ||
                      mem_tok (m.1 ++ m.2) removed)) },
     some ⟨t, removed⟩)
  else (e, none)

/-- Modelled from the spec: batch removal; non-existent roots are silently
skipped and produce no result entry. -/
def remove_tokens (e : Editor) : List Token → Editor × List RemovalResult
  | [] => (e, [])
  | t :: rest =>
    let r := remove_token e t
    let rr := remove_tokens r.1 rest
    (rr.1, match r.2 with | some res => res :: rr.2 | none => rr.2)

/-- Closedness of a token set under the dependency relation induced by a
merge table: whenever a merge's left or right operand is in the set, its
result is in the set. -/
def DepClosed (ms : List (Token × Token)) (s : List Token) : Prop :=
  ∀ m ∈ ms, (m.1 ∈ s ∨ m.2 ∈ s) → m.1 ++ m.2 ∈ s

/-- Modelled from the spec: a token is special iff it begins with `<` and
ends with `>`. -/
def is_special (t : Token) : Bool :=
  t.head? == some '<' && t.getLast? == some '>'

/-- Modelled from the spec: shrink eligibility — id at least `min_id`, not
special and not single-character. -/
def eligible (minId : Nat) (kv : Token × Nat) : Bool :=
  decide (minId ≤ kv.2) && !is_special kv.1 && !decide (kv.1.length = 1)

/-- Comparator for shrink candidates: `a` comes before `b` when it is longer,
or of equal length and of larger id (most-derived, newest first). -/
def cand_before (a b : Token × Nat) : Bool :=
  decide (b.1.length < a.1.length) ||
    (decide (b.1.length = a.1.length) && decide (b.2 ≤ a.2))

/-- Insertion into a list sorted by `cand_before`. -/
def ins_cand (x : Token × Nat) : List (Token × Nat) → List (Token × Nat)
  | [] => [x]
  | y :: ys => if cand_before x y then x :: y :: ys else y :: ins_cand x ys

/-- Insertion sort of shrink candidates by `cand_before`. -/
def sort_cands : List (Token × Nat) → List (Token × Nat)
  | [] => []
  | x :: xs => ins_cand x (sort_cands xs)

/-- Modelled from the spec: `find_tokens_to_shrink(count, min_id)` — up to
`count` eligible candidates ordered by byte length descending, ties broken by
id descending, as `(token, id, length)` triples. -/
def find_tokens_to_shrink (e : Editor) (count minId : Nat) :
    List (Token × Nat × Nat) :=
  ((sort_cands (e.vocab.filter (eligible minId))).map
    (fun kv => (kv.1, kv.2, kv.1.length))).take count

/-- Modelled from the spec: the shrink loop — repeatedly cascade-remove the
top candidate, recomputing candidates after each removal, until the
vocabulary has shrunk by at least `count` tokens or no eligible candidate
remains.  Returns the final editor, the roots chosen and the total number of
removed tokens. -/
def shrink_loop : Nat → Editor → Nat → Nat → Nat → List Token → Nat →
    Editor × List Token × Nat
  | 0, e, _, _, _, roots, acc => (e, roots, acc)
  | fuel + 1, e, count, minId, init, roots, acc =>
    if count ≤ init - e.vocab.length then (e, roots, acc)
    else
      match find_tokens_to_shrink e 1 minId with
      | [] => (e, roots, acc)
      | c :: _ =>
        let r := remove_token e c.1
        shrink_loop fuel r.1 count minId init (roots ++ [c.1])
          (acc + (match r.2 with | some res => res.removed_tokens.length | none => 0))

/-- Modelled from the spec: `shrink(count, min_id)`. -/
def shrink (e : Editor) (count minId : Nat) : Editor × ShrinkResult :=
  let init := e.vocab.length
  let r := shrink_loop (e.vocab.length + 1) e count minId init [] 0
  (r.1, ⟨init, r.1.vocab.length, r.2.1, r.2.2⟩)

/-- Modelled from the spec: loader error taxonomy (the error kinds surfaced
to callers by construction). -/
inductive LoadError where
  | ioError : LoadError
  | parseError : LoadError
  | unsupportedModel : LoadError

/-- Drop every field of a JSON object whose key equals `k`. -/
def drop_key (fields : List (String × Json)) (k : String) :
    List (String × Json) :=
  fields.filter (fun f => !(f.1 == k))

/-- Parse the `vocab` object of a document into the token ↦ id list. -/
def parse_vocab : List (String × Json) → Option (List (Token × Nat))
  | [] => some []
  | (s, Json.num n) :: rest =>
    if 0 ≤ n then (parse_vocab rest).map (fun v => (s.toList, n.toNat) :: v)
    else none
  | _ => none

/-- Modelled from the spec: a merge entry is accepted in two shapes — a
two-element array `[left, right]` or a space-joined string `"left right"`. -/
def parse_merge : Json → Option (Token × Token)
  | Json.arr [Json.str l, Json.str r] => some (l.toList, r.toList)
  | Json.str s =>
    match s.splitOn " " with
    | [l, r] => some (l.toList, r.toList)
    | _ => none
  | _ => none

/-- Parse the `merges` array of a document. -/
def parse_merges : List Json → Option (List (Token × Token))
  | [] => some []
  | j :: rest =>
    match parse_merge j with
    | some m => (parse_merges rest).map (fun ms => m :: ms)
    | none => none

/-- Modelled from the spec: `from_json` — parse a tokenizer document,
rejecting it when `model.type` is not exactly `"BPE"`; all fields other than
`model.vocab` and `model.merges` are retained verbatim. -/
def from_json (j : Json) : Except LoadError Editor :=
  match j with
  | Json.obj fields =>
    match jlookup fields "model" with
    | some (Json.obj mfields) =>
      match jlookup mfields "type" with
      | some (Json.str ty) =>
        if ty = "BPE" then
          match jlookup mfields "vocab", jlookup mfields "merges" with
          | some (Json.obj vfields), some (Json.arr mjs) =>
            match parse_vocab vfields, parse_merges mjs with
            | some v, some ms =>
              Except.ok
                { vocab := v
                , merges := ms
                , model_extra := drop_key (drop_key mfields "vocab") "merges"
                , top_extra := drop_key fields "model" }
            | _, _ => Except.error LoadError.parseError
          | _, _ => Except.error LoadError.parseError
        else Except.error LoadError.unsupportedModel
      | _ => Except.error LoadError.parseError
    | _ => Except.error LoadError.parseError
  | _ => Except.error LoadError.parseError

/-- Modelled from the spec: `to_json` — re-emit the document with the current
vocab and merges (merges in the two-element array form, in priority order)
and every untouched field verbatim. -/
def to_json (e : Editor) : Json :=
  Json.obj (e.top_extra ++
    [("model", Json.obj (e.model_extra ++
      [("vocab", Json.obj (e.vocab.map
          (fun kv => (kv.1.asString, Json.num (Int.ofNat kv.2)))))
      , ("merges", Json.arr (e.merges.map
          (fun m => Json.arr [Json.str m.1.asString, Json.str m.2.asString])))]))])

/-- Modelled from the spec: the exception types surfaced at the Python
binding (the PyO3 binding layer is not in the repository; modelled from the
error-handling section and the binding tests). -/
inductive PyExc where
  | ioError : PyExc
  | valueError : PyExc

/-- Modelled from the spec: mapping of the core's loader errors to Python
exception types — I/O failures surface as `IOError`, parse failures and
unsupported model types as `ValueError`. -/
def py_exc_of : LoadError → PyExc
  | LoadError.ioError => PyExc.ioError
  | LoadError.parseError => PyExc.valueError
  | LoadError.unsupportedModel => PyExc.valueError

/-- Modelled from the spec: abstraction of an input text handed to
`from_json` — either malformed (not valid JSON) or a well-formed JSON
value. -/
inductive JsonText where
  | malformed : JsonText
  | wellFormed (j : Json) : JsonText

/-- Modelled from the spec: text-level JSON parsing; malformed input is a
`ParseError`. -/
def parse_text : JsonText → Except LoadError Json
  | JsonText.malformed => Except.error LoadError.parseError
  | JsonText.wellFormed j => Except.ok j

/-- Modelled from the spec: the Python classmethod `from_json` — parse the
string, build the editor, surface failures as Python exceptions. -/
def py_from_json (s : JsonText) : Except PyExc Editor :=
  ((parse_text s).bind from_json).mapError py_exc_of

/-- Modelled from the spec: reading the file at a path; `none` stands for a
path whose file cannot be read. -/
def read_file : Option JsonText → Except LoadError JsonText
  | none => Except.error LoadError.ioError
  | some s => Except.ok s

/-- Modelled from the spec: the Python path constructor — read the file,
parse it and build the editor, surfacing failures as Python exceptions. -/
def py_load (f : Option JsonText) : Except PyExc Editor :=
  ((read_file f).bind (fun s => (parse_text s).bind from_json)).mapError py_exc_of

/-- The public mutations of the editor, used to state invariants that must
hold after any sequence of mutations. -/
inductive EditOp where
  | add (t : Token)
  | addAtomic (t : Token)
  | remove (t : Token)
  | doShrink (count minId : Nat)
  | addBatch (ts : List Token)
  | removeBatch (ts : List Token)

/-- Apply one public mutation to the editor state. -/
def apply_op (e : Editor) : EditOp → Editor
  | .add t => (add_token e t).1
  | .addAtomic t => (add_token_atomic e t).1
  | .remove t => (remove_token e t).1
  | .doShrink c m => (shrink e c m).1
  | .addBatch ts => (add_tokens e ts).1
  | .removeBatch ts => (remove_tokens e ts).1

/-- Apply a sequence of public mutations in order. -/
def apply_ops (e : Editor) (ops : List EditOp) : Editor :=
  ops.foldl apply_op e

/-- Token ids of surviving tokens are stable: a token present before an edit
is, after the edit, either absent or still mapped to the same id. -/
def Stable (e e' : Editor) : Prop :=
  ∀ t i, lookup_tok e.vocab t = some i →
    lookup_tok e'.vocab t = some i ∨ lookup_tok e'.vocab t = none

/-- A step that never disturbs an existing vocabulary entry (additions). -/
def Preserves (e e' : Editor) : Prop :=
  ∀ t i, lookup_tok e.vocab t = some i → lookup_tok e'.vocab t = some i

/-- A step that only ever discards vocabulary entries (removals): surviving
entries keep their id, absent entries stay absent. -/
def StableF (e e' : Editor) : Prop :=
  (∀ t i, lookup_tok e.vocab t = some i →
    lookup_tok e'.vocab t = some i ∨ lookup_tok e'.vocab t = none) ∧
  (∀ t, lookup_tok e.vocab t = none → lookup_tok e'.vocab t = none)

/-- The sample tokenizer document used by the repository's test-suite:
vocab `{<pad>:0, <eos>:1, <unk>:2, a:100, b:101, c:102, ab:200, abc:300}`
and merges `[["a","b"], ["ab","c"]]`. -/
def sample_editor : Editor :=
  { vocab :=
      [ (['<', 'p', 'a', 'd', '>'], 0)
      , (['<', 'e', 'o', 's', '>'], 1)
      , (['<', 'u', 'n', 'k', '>'], 2)
      , (['a'], 100)
      , (['b'], 101)
      , (['c'], 102)
      , (['a', 'b'], 200)
      , (['a', 'b', 'c'], 300) ]
  , merges := [(['a'], ['b']), (['a', 'b'], ['c'])]
  , model_extra := [("type", Json.str "BPE")]
  , top_extra := [("version", Json.str "1.0")] }

theorem mem_tok_iff (x : Token) (l : List Token) : mem_tok x l = true ↔ x ∈ l := by
  simp [mem_tok, List.any_eq_true]

theorem id_used_iff (v : List (Token × Nat)) (n : Nat) :
    id_used v n = true ↔ ∃ kv ∈ v, kv.2 = n := by
  simp [id_used, List.any_eq_true]

theorem mem_of_with_idx {i : Nat} {l : List α} {p : Nat × α}
    (h : p ∈ with_idx i l) : p.2 ∈ l := by
  induction l generalizing i with
  | nil => cases h
  | cons a as ih =>
    rcases List.mem_cons.mp h with h | h
    · simp [h]
    · exact List.mem_cons_of_mem _ (ih h)

theorem with_idx_of_mem {l : List α} {a : α} (h : a ∈ l) (i : Nat) :
    ∃ j, (j, a) ∈ with_idx i l := by
  induction l generalizing i with
  | nil => cases h
  | cons b bs ih =>
    rcases List.mem_cons.mp h with h | h
    · exact ⟨i, by simp [with_idx, h]⟩
    · rcases ih h (i + 1) with ⟨j, hj⟩
      exact ⟨j, List.mem_cons_of_mem _ hj⟩

theorem invalid_count_eq_zero_iff (e : Editor) :
    (validate_merges e).invalid_count = 0 ↔ MergesValid e := by
  constructor
  · intro h m hm
    have hnil : (with_idx 0 e.merges).filter (fun p => !merge_ok e p.2) = [] :=
      List.length_eq_zero.mp h
    rcases with_idx_of_mem hm 0 with ⟨j, hj⟩
    by_contra hbad
    have hmem : (j, m) ∈ (with_idx 0 e.merges).filter (fun p => !merge_ok e p.2) := by
      refine List.mem_filter.mpr ⟨hj, ?_⟩
      simp only [Bool.not_eq_true'] at hbad ⊢
      cases hcase : merge_ok e m with
      | false => rfl
      | true => exact absurd hcase hbad
    rw [hnil] at hmem
    cases hmem
  · intro h
    have hnil : (with_idx 0 e.merges).filter (fun p => !merge_ok e p.2) = [] := by
      refine List.filter_eq_nil_iff.mpr ?_
      intro p hp
      have := h p.2 (mem_of_with_idx hp)
      simp [this]
    simp [validate_merges, hnil]

theorem lookup_tok_append_some {v : List (Token × Nat)} {t : Token} {i : Nat}
    (w : List (Token × Nat)) (h : lookup_tok v t = some i) :
    lookup_tok (v ++ w) t = some i := by
  induction v with
  | nil => simp [lookup_tok] at h
  | cons kv rest ih =>
    by_cases hk : kv.1 = t
    · simpa [lookup_tok, hk] using h
    · rw [lookup_tok] at h
      simp only [hk, if_false] at h
      simpa [lookup_tok, hk] using ih h

theorem lookup_tok_append_none {v : List (Token × Nat)} {t : Token}
    (w : List (Token × Nat)) (h : lookup_tok v t = none) :
    lookup_tok (v ++ w) t = lookup_tok w t := by
  induction v with
  | nil => simp
  | cons kv rest ih =>
    by_cases hk : kv.1 = t
    · simp [lookup_tok, hk] at h
    · rw [lookup_tok] at h
      simp only [hk, if_false] at h
      simpa [lookup_tok, hk] using ih h

theorem lookup_tok_filter (q : Token → Bool) (v : List (Token × Nat)) (t : Token) :
    lookup_tok (v.filter (fun kv => q kv.1)) t =
      if q t then lookup_tok v t else none := by
  induction v with
  | nil => simp [lookup_tok]
  | cons kv rest ih =>
    by_cases hk : kv.1 = t
    · subst hk
      cases hq : q kv.1 with
      | true => simp [lookup_tok, hq]
      | false => simp [lookup_tok, hq, ih]
    · cases hq : q kv.1 with
      | true => simp [lookup_tok, hq, hk, ih]
      | false => simp [lookup_tok, hq, hk, ih]

theorem has_token_insert (e : Editor) (u t : Token) (h : has_token e t = true) :
    has_token (insert_if_absent e u) t = true := by
  unfold insert_if_absent
  by_cases hu : has_token e u = true
  · simp [hu, h]
  · simp only [hu, if_false]
    unfold has_token at h ⊢
    cases hl : lookup_tok e.vocab t with
    | none => simp [hl] at h
    | some i => simp [lookup_tok_append_some _ hl]

theorem has_token_insert_self (e : Editor) (t : Token) :
    has_token (insert_if_absent e t) t = true := by
  unfold insert_if_absent
  cases ht : has_token e t with
  | true => simp [ht]
  | false =>
    have hl : lookup_tok e.vocab t = none := by
      unfold has_token at ht
      cases hl : lookup_tok e.vocab t with
      | none => rfl
      | some i => rw [hl] at ht; simp at ht
    simp only [ht, Bool.false_eq_true, if_false]
    show (lookup_tok (e.vocab ++ [(t, fresh_id e.vocab)]) t).isSome = true
    rw [lookup_tok_append_none _ hl]
    simp [lookup_tok]

theorem insert_if_absent_merges (e : Editor) (t : Token) :
    (insert_if_absent e t).merges = e.merges := by
  unfold insert_if_absent
  by_cases ht : has_token e t = true <;> simp [ht]

theorem has_token_append_merge (e : Editor) (l r t : Token) :
    has_token (append_merge e l r) t = has_token e t := rfl

theorem merge_ok_mono {e e' : Editor}
    (h : ∀ u, has_token e u = true → has_token e' u = true)
    {m : Token × Token} (hm : merge_ok e m = true) : merge_ok e' m = true := by
  unfold merge_ok at hm ⊢
  rcases Bool.and_eq_true_iff.mp hm with ⟨hm12, h3⟩
  rcases Bool.and_eq_true_iff.mp hm12 with ⟨h1, h2⟩
  simp [h m.1 h1, h m.2 h2, h _ h3]

theorem valid_of_mono {e e' : Editor}
    (hmerges : ∀ m ∈ e'.merges, m ∈ e.merges)
    (hhas : ∀ u, has_token e u = true → has_token e' u = true)
    (hv : MergesValid e) : MergesValid e' :=
  fun m hm => merge_ok_mono hhas (hv m (hmerges m hm))

theorem valid_insert_if_absent {e : Editor} (t : Token) (hv : MergesValid e) :
    MergesValid (insert_if_absent e t) :=
  valid_of_mono
    (by rw [insert_if_absent_merges]; exact fun m hm => hm)
    (fun u hu => has_token_insert e t u hu) hv

theorem reach_step_mem {ms : List (Token × Token)} {s : List Token} {x : Token}
    (h : x ∈ s) : x ∈ reach_step ms s := by
  unfold reach_step
  induction ms generalizing s with
  | nil => simpa
  | cons m rest ih =>
    rw [List.foldl_cons]
    by_cases hc :
        ((mem_tok m.1 s || mem_tok m.2 s) && !mem_tok (m.1 ++ m.2) s) = true
    · simp only [hc, if_true]
      exact ih (List.mem_append_left _ h)
    · simp only [hc, if_false]
      exact ih h

theorem reach_step_len {ms : List (Token × Token)} (s : List Token) :
    s.length ≤ (reach_step ms s).length := by
  unfold reach_step
  induction ms generalizing s with
  | nil => simp
  | cons m rest ih =>
    rw [List.foldl_cons]
    by_cases hc :
        ((mem_tok m.1 s || mem_tok m.2 s) && !mem_tok (m.1 ++ m.2) s) = true
    · simp only [hc, if_true]
      calc s.length ≤ (s ++ [m.1 ++ m.2]).length := by simp
        _ ≤ _ := ih _
    · simp only [hc, if_false]
      exact ih s

theorem reach_step_fix_closed {ms : List (Token × Token)} {s : List Token}
    (h : (reach_step ms s).length = s.length) : DepClosed ms s := by
  unfold reach_step at h
  induction ms generalizing s with
  | nil => intro m hm; cases hm
  | cons m rest ih =>
    rw [List.foldl_cons] at h
    by_cases hc :
        ((mem_tok m.1 s || mem_tok m.2 s) && !mem_tok (m.1 ++ m.2) s) = true
    · exfalso
      simp only [hc, if_true] at h
      have := @reach_step_len rest (s ++ [m.1 ++ m.2])
      unfold reach_step at this
      simp only [List.length_append, List.length_singleton] at this
      omega
    · simp only [hc, if_false] at h
      intro m' hm' hlr
      rcases List.mem_cons.mp hm' with hm' | hm'
      · subst hm'
        have hlr' : (mem_tok m'.1 s || mem_tok m'.2 s) = true := by
          rcases hlr with hl | hr
          · simp [(mem_tok_iff _ _).mpr hl]
          · simp [(mem_tok_iff _ _).mpr hr]
        rw [hlr'] at hc
        simp only [Bool.true_and, Bool.not_eq_true', Bool.not_eq_false] at hc
        exact (mem_tok_iff _ _).mp hc
      · exact ih h m' hm' hlr

theorem reach_step_growth {ms : List (Token × Token)} {s : List Token}
    (h : (reach_step ms s).length ≠ s.length) :
    ∃ m ∈ ms, (m.1 ++ m.2) ∉ s ∧ (m.1 ++ m.2) ∈ reach_step ms s := by
  unfold reach_step at h ⊢
  induction ms generalizing s with
  | nil => simp at h
  | cons m rest ih =>
    rw [List.foldl_cons] at h ⊢
    by_cases hc :
        ((mem_tok m.1 s || mem_tok m.2 s) && !mem_tok (m.1 ++ m.2) s) = true
    · refine ⟨m, List.mem_cons_self _ _, ?_, ?_⟩
      · have : mem_tok (m.1 ++ m.2) s = false := by
          rcases Bool.and_eq_true_iff.mp hc with ⟨_, hres⟩
          simpa using hres
        intro hmem
        rw [(mem_tok_iff _ _).mpr hmem] at this
        cases this
      · simp only [hc, if_true]
        have : (m.1 ++ m.2) ∈ s ++ [m.1 ++ m.2] := by simp
        have hmem := @reach_step_mem rest _ _ this
        unfold reach_step at hmem
        exact hmem
    · simp only [hc, if_false] at h ⊢
      rcases ih h with ⟨m', hm', hout, hin⟩
      exact ⟨m', List.mem_cons_of_mem _ hm', hout, hin⟩

theorem countP_mono_mem {l : List α} {p q : α → Bool}
    (h : ∀ a ∈ l, p a = true → q a = true) : l.countP p ≤ l.countP q := by
  induction l with
  | nil => simp
  | cons a as ih =>
    rw [List.countP_cons, List.countP_cons]
    have htail := ih (fun b hb => h b (List.mem_cons_of_mem _ hb))
    by_cases hp : p a = true
    · have hq := h a (List.mem_cons_self _ _) hp
      simp [hp, hq]; omega
    · have hp' : p a = false := by
        cases hpa : p a with
        | true => exact absurd hpa hp
        | false => rfl
      simp only [hp', if_false]
      by_cases hq : q a = true <;> simp [hq] <;> omega

theorem countP_strict_mem {l : List α} {p q : α → Bool} {b : α}
    (h : ∀ a ∈ l, p a = true → q a = true) (hb : b ∈ l)
    (hqb : q b = true) (hpb : p b = false) : l.countP p < l.countP q := by
  induction l with
  | nil => cases hb
  | cons a as ih =>
    rw [List.countP_cons, List.countP_cons]
    have hmono := countP_mono_mem (fun c hc => h c (List.mem_cons_of_mem _ hc))
    rcases List.mem_cons.mp hb with hb | hb
    · subst hb
      simp [hpb, hqb]
      omega
    · have := ih (fun c hc => h c (List.mem_cons_of_mem _ hc)) hb
      by_cases hp : p a = true
      · have hq := h a (List.mem_cons_self _ _) hp
        simp [hp, hq]; omega
      · have hp' : p a = false := by
          cases hpa : p a with
          | true => exact absurd hpa hp
          | false => rfl
        simp only [hp', if_false]
        by_cases hq : q a = true <;> simp [hq] <;> omega

theorem reach_aux_mem {fuel : Nat} {ms : List (Token × Token)}
    {s : List Token} {x : Token} (h : x ∈ s) : x ∈ reach_aux fuel ms s := by
  induction fuel generalizing s with
  | zero => simpa [reach_aux]
  | succ n ih =>
    rw [reach_aux]
    by_cases hfix : (reach_step ms s).length = s.length
    · simpa [hfix]
    · simp only [hfix, if_false]
      exact ih (reach_step_mem h)

theorem reach_aux_closed {fuel : Nat} {ms : List (Token × Token)}
    {s : List Token}
    (h : ms.countP (fun m => !mem_tok (m.1 ++ m.2) s) < fuel) :
    DepClosed ms (reach_aux fuel ms s) := by
  induction fuel generalizing s with
  | zero => omega
  | succ n ih =>
    rw [reach_aux]
    by_cases hfix : (reach_step ms s).length = s.length
    · simpa [hfix] using reach_step_fix_closed hfix
    · simp only [hfix, if_false]
      rcases reach_step_growth hfix with ⟨m0, hm0, hout, hin⟩
      have hstrict :
          ms.countP (fun m => !mem_tok (m.1 ++ m.2) (reach_step ms s)) <
            ms.countP (fun m => !mem_tok (m.1 ++ m.2) s) := by
        refine countP_strict_mem ?_ hm0 ?_ ?_
        · intro a _ ha
          simp only [Bool.not_eq_true'] at ha ⊢
          cases hmem : mem_tok (a.1 ++ a.2) s with
          | false => rfl
          | true =>
            exfalso
            have := @reach_step_mem ms _ _ ((mem_tok_iff _ _).mp hmem)
            rw [(mem_tok_iff _ _).mpr this] at ha
            cases ha
        · simp only [Bool.not_eq_true']
          cases hmem : mem_tok (m0.1 ++ m0.2) s with
          | false => rfl
          | true => exact absurd ((mem_tok_iff _ _).mp hmem) hout
        · simp [(mem_tok_iff _ _).mpr hin]
      exact ih (by omega)

theorem reach_closed (ms : List (Token × Token)) (s : List Token) :
    DepClosed ms (reach ms s) := by
  unfold reach
  exact reach_aux_closed
    (Nat.lt_succ_of_le (List.countP_le_length _))

theorem reach_mem (ms : List (Token × Token)) {s : List Token} {x : Token}
    (h : x ∈ s) : x ∈ reach ms s :=
  reach_aux_mem h

theorem fresh_aux_ge (v : List (Token × Nat)) :
    ∀ fuel cand, cand ≤ fresh_aux v fuel cand := by
  intro fuel
  induction fuel with
  | zero => intro cand; simp [fresh_aux]
  | succ n ih =>
    intro cand
    rw [fresh_aux]
    by_cases hu : id_used v cand = true
    · simp only [hu, if_true]
      exact Nat.le_trans (Nat.le_succ _) (ih (cand + 1))
    · simp [hu]

theorem countP_ge_strict {v : List (Token × Nat)} {cand : Nat}
    (hu : id_used v cand = true) :
    v.countP (fun kv => decide (cand + 1 ≤ kv.2)) <
      v.countP (fun kv => decide (cand ≤ kv.2)) := by
  rcases (id_used_iff _ _).mp hu with ⟨kv, hmem, hval⟩
  refine countP_strict_mem ?_ hmem ?_ ?_
  · intro a _ ha
    simp only [decide_eq_true_eq] at ha ⊢
    omega
  · simp [hval]
  · simp [hval]

theorem fresh_aux_free (v : List (Token × Nat)) :
    ∀ fuel cand, v.countP (fun kv => decide (cand ≤ kv.2)) < fuel →
      id_used v (fresh_aux v fuel cand) = false := by
  intro fuel
  induction fuel with
  | zero => intro cand h; omega
  | succ n ih =>
    intro cand h
    rw [fresh_aux]
    by_cases hu : id_used v cand = true
    · simp only [hu, if_true]
      exact ih (cand + 1) (by have := countP_ge_strict hu; omega)
    · simp only [hu]
      cases hcase : id_used v cand with
      | true => exact absurd hcase hu
      | false => simp [hcase]

theorem fresh_aux_min (v : List (Token × Nat)) :
    ∀ fuel cand, v.countP (fun kv => decide (cand ≤ kv.2)) < fuel →
      ∀ m, cand ≤ m → id_used v m = false → fresh_aux v fuel cand ≤ m := by
  intro fuel
  induction fuel with
  | zero => intro cand h; omega
  | succ n ih =>
    intro cand h m hcm hm
    rw [fresh_aux]
    by_cases hu : id_used v cand = true
    · simp only [hu, if_true]
      have hne : m ≠ cand := by
        intro heq
        rw [heq] at hm
        rw [hm] at hu
        cases hu
      exact ih (cand + 1) (by have := countP_ge_strict hu; omega) m (by omega) hm
    · simp only [hu]
      cases hcase : id_used v cand with
      | true => exact absurd hcase hu
      | false => simpa [hcase]

theorem fresh_id_pos (v : List (Token × Nat)) : 0 < fresh_id v :=
  Nat.lt_of_lt_of_le Nat.zero_lt_one (fresh_aux_ge v _ 1)

theorem fresh_id_free (v : List (Token × Nat)) : id_used v (fresh_id v) = false :=
  fresh_aux_free v _ 1 (Nat.lt_succ_of_le (List.countP_le_length _))

theorem fresh_id_min (v : List (Token × Nat)) (m : Nat) (hm : 0 < m)
    (hfree : id_used v m = false) : fresh_id v ≤ m :=
  fresh_aux_min v _ 1 (Nat.lt_succ_of_le (List.countP_le_length _)) m hm hfree

theorem remove_token_of_has {e : Editor} {t : Token} (ht : has_token e t = true) :
    remove_token e t =
      ({ e with
          vocab := e.vocab.filter (fun kv => !mem_tok kv.1 (reach e.merges [t]))
        , merges := e.merges.filter
            (fun m => !(mem_tok m.1 (reach e.merges [t]) ||
                        mem_tok m.2 (reach e.merges [t]) ||
                        mem_tok (m.1 ++ m.2) (reach e.merges [t]))) },
       some ⟨t, reach e.merges [t]⟩) := by
  unfold remove_token
  simp [ht]

theorem has_token_remove {e : Editor} {t : Token} (ht : has_token e t = true)
    (u : Token) :
    has_token (remove_token e t).1 u =
      (!mem_tok u (reach e.merges [t]) && has_token e u) := by
  rw [remove_token_of_has ht]
  show (lookup_tok (e.vocab.filter
      (fun kv => !mem_tok kv.1 (reach e.merges [t]))) u).isSome = _
  rw [lookup_tok_filter (fun x => !mem_tok x (reach e.merges [t]))]
  by_cases hq : (!mem_tok u (reach e.merges [t])) = true
  · simp [hq]
    rfl
  · simp only [hq, if_false]
    have hq' : (!mem_tok u (reach e.merges [t])) = false := by
      cases hc : (!mem_tok u (reach e.merges [t])) with
      | true => exact absurd hc hq
      | false => rfl
    simp [hq']

theorem valid_remove_token {e : Editor} (t : Token) (hv : MergesValid e) :
    MergesValid (remove_token e t).1 := by
  by_cases ht : has_token e t = true
  · intro m hm
    have hmem : m ∈ (remove_token e t).1.merges := hm
    rw [remove_token_of_has ht] at hmem
    simp only at hmem
    rcases List.mem_filter.mp hmem with ⟨hmm, hpred⟩
    have hok := hv m hmm
    simp only [Bool.not_eq_true', Bool.or_eq_false_iff] at hpred
    rcases hpred with ⟨⟨h1, h2⟩, h3⟩
    unfold merge_ok at hok ⊢
    rcases Bool.and_eq_true_iff.mp hok with ⟨hok12, hok3⟩
    rcases Bool.and_eq_true_iff.mp hok12 with ⟨hok1, hok2⟩
    rw [has_token_remove ht, has_token_remove ht, has_token_remove ht]
    simp [h1, h2, h3, hok1, hok2, hok3]
  · have : remove_token e t = (e, none) := by
      unfold remove_token
      simp [ht]
    rw [this]
    exact hv

theorem take_one_drop (t : Token) (i : Nat) :
    t.take i ++ (t.drop i).take 1 = t.take (i + 1) := by
  induction t generalizing i with
  | nil => simp
  | cons c cs ih =>
    cases i with
    | zero => simp
    | succ j => simpa using ih j

theorem drop_take_one_mem (t : Token) (i : Nat) (h : i < t.length) :
    ∃ c, (t.drop i).take 1 = [c] ∧ c ∈ t := by
  induction t generalizing i with
  | nil => simp at h
  | cons c cs ih =>
    cases i with
    | zero => exact ⟨c, by simp, List.mem_cons_self _ _⟩
    | succ j =>
      rcases ih j (by simpa using h) with ⟨c', hc', hmem⟩
      exact ⟨c', by simpa using hc', List.mem_cons_of_mem _ hmem⟩

theorem merge_ok_append_merge (e : Editor) (l r : Token) (m : Token × Token) :
    merge_ok (append_merge e l r) m = merge_ok e m := rfl

theorem chain_steps_has_mono (t : Token) :
    ∀ (l : List Nat) (e : Editor) (u : Token), has_token e u = true →
      has_token (chain_steps t e l).1 u = true := by
  intro l
  induction l with
  | nil => intro e u h; exact h
  | cons i rest ih =>
    intro e u h
    rw [chain_steps]
    exact ih _ u (by
      rw [has_token_append_merge]
      exact has_token_insert _ _ _ h)

theorem chain_steps_has (t : Token) :
    ∀ (n i : Nat) (e : Editor), has_token e (t.take i) = true →
      has_token (chain_steps t e (idx_list i n)).1 (t.take (i + n)) = true := by
  intro n
  induction n with
  | zero => intro i e h; simpa [idx_list, chain_steps] using h
  | succ m ih =>
    intro i e h
    rw [idx_list, chain_steps]
    have hstep : has_token
        (append_merge (insert_if_absent e (t.take (i + 1)))
          (t.take i) ((t.drop i).take 1)) (t.take (i + 1)) = true := by
      rw [has_token_append_merge]
      exact has_token_insert_self _ _
    have := ih (i + 1) _ hstep
    have harith : i + 1 + m = i + (m + 1) := by omega
    rw [harith] at this
    exact this

theorem chain_steps_valid (t : Token) :
    ∀ (n i : Nat) (e : Editor), i + n ≤ t.length →
      (∀ c ∈ t, has_token e [c] = true) →
      has_token e (t.take i) = true → MergesValid e →
      MergesValid (chain_steps t e (idx_list i n)).1 := by
  intro n
  induction n with
  | zero => intro i e _ _ _ hv; simpa [idx_list, chain_steps] using hv
  | succ m ih =>
    intro i e hlen hchars hpre hv
    rw [idx_list, chain_steps]
    have hilt : i < t.length := by omega
    rcases drop_take_one_mem t i hilt with ⟨c, hc, hcmem⟩
    have hv1 : MergesValid (insert_if_absent e (t.take (i + 1))) :=
      valid_insert_if_absent _ hv
    have hv2 : MergesValid
        (append_merge (insert_if_absent e (t.take (i + 1)))
          (t.take i) ((t.drop i).take 1)) := by
      intro mm hmm
      rcases List.mem_append.mp hmm with hmm | hmm
      · rw [merge_ok_append_merge]
        exact hv1 mm hmm
      · rcases List.mem_singleton.mp hmm with rfl
        rw [merge_ok_append_merge]
        unfold merge_ok
        have h1 : has_token (insert_if_absent e (t.take (i + 1))) (t.take i) = true :=
          has_token_insert _ _ _ hpre

        have h2 : has_token (insert_if_absent e (t.take (i + 1)))
            ((t.drop i).take 1) = true := by
          rw [hc]
          exact has_token_insert _ _ _ (hchars c hcmem)
        have h3 : has_token (insert_if_absent e (t.take (i + 1)))
            (t.take i ++ (t.drop i).take 1) = true := by
          rw [take_one_drop]
          exact has_token_insert_self _ _
        simp [h1, h2, h3]
    have hchars2 : ∀ c' ∈ t, has_token
        (append_merge (insert_if_absent e (t.take (i + 1)))
          (t.take i) ((t.drop i).take 1)) [c'] = true := by
      intro c' hc'
      rw [has_token_append_merge]
      exact has_token_insert _ _ _ (hchars c' hc')
    have hpre2 : has_token
        (append_merge (insert_if_absent e (t.take (i + 1)))
          (t.take i) ((t.drop i).take 1)) (t.take (i + 1)) = true := by
      rw [has_token_append_merge]
      exact has_token_insert_self _ _
    exact ih (i + 1) _ (by omega) hchars2 hpre2 hv2

theorem insert_chars_has_mono (cs : List Char) :
    ∀ (e : Editor) (u : Token), has_token e u = true →
      has_token (insert_chars e cs) u = true := by
  induction cs with
  | nil => intro e u h; exact h
  | cons c rest ih =>
    intro e u h
    exact ih _ u (has_token_insert _ _ _ h)

theorem insert_chars_has_all (cs : List Char) :
    ∀ (e : Editor), ∀ c ∈ cs, has_token (insert_chars e cs) [c] = true := by
  induction cs with
  | nil => intro e c hc; cases hc
  | cons c0 rest ih =>
    intro e c hc
    rcases List.mem_cons.mp hc with hc | hc
    · subst hc
      exact insert_chars_has_mono rest _ _ (has_token_insert_self _ _)
    · exact ih _ c hc

theorem insert_chars_valid (cs : List Char) :
    ∀ (e : Editor), MergesValid e → MergesValid (insert_chars e cs) := by
  induction cs with
  | nil => intro e hv; exact hv
  | cons c rest ih =>
    intro e hv
    exact ih _ (valid_insert_if_absent _ hv)

theorem insert_chars_merges (cs : List Char) :
    ∀ (e : Editor), (insert_chars e cs).merges = e.merges := by
  induction cs with
  | nil => intro e; rfl
  | cons c rest ih =>
    intro e
    rw [insert_chars]
    show (insert_chars (insert_if_absent e [c]) rest).merges = e.merges
    rw [ih, insert_if_absent_merges]

theorem char_chain_valid (e : Editor) (t : Token) (hv : MergesValid e) :
    MergesValid (char_chain e t).1 := by
  unfold char_chain
  cases t with
  | nil => simpa [idx_list, chain_steps] using insert_chars_valid [] e hv
  | cons c cs =>
    have hv1 := insert_chars_valid (c :: cs) e hv
    have hchars := insert_chars_has_all (c :: cs) e
    have hpre : has_token (insert_chars e (c :: cs)) ((c :: cs).take 1) = true := by
      simpa using hchars c (List.mem_cons_self _ _)
    exact chain_steps_valid (c :: cs) ((c :: cs).length - 1) 1 _
      (by simp; omega) hchars hpre hv1

theorem char_chain_has_self (e : Editor) (t : Token) (hne : t ≠ []) :
    has_token (char_chain e t).1 t = true := by
  unfold char_chain
  cases t with
  | nil => exact absurd rfl hne
  | cons c cs =>
    have hpre : has_token (insert_chars e (c :: cs)) ((c :: cs).take 1) = true := by
      simpa using insert_chars_has_all (c :: cs) e c (List.mem_cons_self _ _)
    have := chain_steps_has (c :: cs) ((c :: cs).length - 1) 1 _ hpre
    have harith : 1 + ((c :: cs).length - 1) = (c :: cs).length := by
      simp; omega
    rw [harith, List.take_length] at this
    exact this

theorem le_foldr_max_nat {l : List Nat} {x : Nat} (h : x ∈ l) :
    x ≤ l.foldr Nat.max 0 := by
  induction l with
  | nil => cases h
  | cons a as ih =>
    rcases List.mem_cons.mp h with h | h
    · simp [h, Nat.le_max_left]
    · exact Nat.le_trans (ih h) (Nat.le_max_right _ _)

theorem nat_max_cases (a b : Nat) : Nat.max a b = a ∨ Nat.max a b = b := by
  rcases Nat.le_total a b with h | h
  · right; exact Nat.max_eq_right h
  · left; exact Nat.max_eq_left h

theorem foldr_max_mem (l : List Nat) :
    l.foldr Nat.max 0 = 0 ∨ l.foldr Nat.max 0 ∈ l := by
  induction l with
  | nil => left; rfl
  | cons a as ih =>
    rw [List.foldr_cons]
    rcases nat_max_cases a (as.foldr Nat.max 0) with hmax | hmax <;> rw [hmax]
    · right; exact List.mem_cons_self _ _
    · rcases ih with h0 | hmem
      · left; exact h0
      · right; exact List.mem_cons_of_mem _ hmem

theorem best_pref_has {e : Editor} {t : Token}
    (h : 0 < best_pref_len e t) :
    best_pref_len e t < t.length ∧
      has_token e (t.take (best_pref_len e t)) = true := by
  unfold best_pref_len at h ⊢
  rcases foldr_max_mem ((List.range t.length).filter
      (fun i => decide (0 < i) && has_token e (t.take i))) with h0 | hmem
  · rw [h0] at h; omega
  · rcases List.mem_filter.mp hmem with ⟨hrange, hpred⟩
    rcases Bool.and_eq_true_iff.mp hpred with ⟨_, hhas⟩
    exact ⟨List.mem_range.mp hrange, hhas⟩

theorem best_pref_eq {e : Editor} {t : Token} {k : Nat}
    (hk0 : 0 < k) (hklen : k < t.length)
    (hhas : has_token e (t.take k) = true)
    (hmax : ∀ j, j < t.length → k < j → has_token e (t.take j) = false) :
    best_pref_len e t = k := by
  have hkmem : k ∈ (List.range t.length).filter
      (fun i => decide (0 < i) && has_token e (t.take i)) := by
    refine List.mem_filter.mpr ⟨List.mem_range.mpr hklen, ?_⟩
    simp [hk0, hhas]
  have hkle : k ≤ best_pref_len e t := le_foldr_max_nat hkmem
  have hpos : 0 < best_pref_len e t := by omega
  rcases best_pref_has hpos with ⟨hblen, hbhas⟩
  by_contra hne
  have hlt : k < best_pref_len e t := by omega
  have := hmax (best_pref_len e t) hblen hlt
  rw [this] at hbhas
  cases hbhas

theorem add_token_atomic_state (e : Editor) (t : Token) :
    (add_token_atomic e t).1 = insert_if_absent e t := by
  unfold add_token_atomic insert_if_absent
  by_cases ht : has_token e t = true <;> simp [ht]

theorem valid_add_token {e : Editor} (t : Token) (hv : MergesValid e) :
    MergesValid (add_token e t).1 := by
  unfold add_token
  by_cases ht : has_token e t = true
  · simpa [ht]
  · simp only [ht, Bool.false_eq_true, if_false]
    by_cases hlen : t.length = 1
    · simpa [hlen] using valid_insert_if_absent t hv
    · simp only [hlen, if_false]
      by_cases hk : 0 < best_pref_len e t
      · simp only [hk, if_true]
        rcases best_pref_has hk with ⟨hblen, hbhas⟩
        by_cases hs : has_token e (t.drop (best_pref_len e t)) = true
        · simp only [hs, if_true]
          intro m hm
          rcases List.mem_append.mp hm with hm | hm
          · rw [merge_ok_append_merge]
            exact valid_insert_if_absent t hv m hm
          · rcases List.mem_singleton.mp hm with rfl
            rw [merge_ok_append_merge]
            unfold merge_ok
            have h1 := has_token_insert e t _ hbhas
            have h2 := has_token_insert e t _ hs
            have h3 : has_token (insert_if_absent e t) t = true :=
              has_token_insert_self _ _
            simp [h1, h2, h3]
        · simp only [hs]
          by_cases hslen : (t.drop (best_pref_len e t)).length = 1
          · simp only [hslen, if_true, Bool.false_eq_true, if_false]
            intro m hm
            rcases List.mem_append.mp hm with hm | hm
            · rw [merge_ok_append_merge]
              have : m ∈ e.merges := by
                have h1 : m ∈ (insert_if_absent (insert_if_absent e
                    (t.drop (best_pref_len e t))) t).merges := hm
                rw [insert_if_absent_merges, insert_if_absent_merges] at h1
                exact h1
              exact valid_insert_if_absent t
                (valid_insert_if_absent _ hv) m
                (by rw [insert_if_absent_merges, insert_if_absent_merges]; exact this)
            · rcases List.mem_singleton.mp hm with rfl
              rw [merge_ok_append_merge]
              unfold merge_ok
              have h1 : has_token (insert_if_absent (insert_if_absent e
                  (t.drop (best_pref_len e t))) t)
                  (t.take (best_pref_len e t)) = true :=
                has_token_insert _ _ _ (has_token_insert _ _ _ hbhas)
              have h2 : has_token (insert_if_absent (insert_if_absent e
                  (t.drop (best_pref_len e t))) t)
                  (t.drop (best_pref_len e t)) = true :=
                has_token_insert _ _ _ (has_token_insert_self _ _)
              have h3 : has_token (insert_if_absent (insert_if_absent e
                  (t.drop (best_pref_len e t))) t) t = true :=
                has_token_insert_self _ _
              simp [h1, h2, h3]
          · simp only [hslen, Bool.false_eq_true, if_false]
            exact char_chain_valid e t hv
      · simp only [hk, if_false]
        exact char_chain_valid e t hv

theorem valid_add_token_atomic {e : Editor} (t : Token) (hv : MergesValid e) :
    MergesValid (add_token_atomic e t).1 := by
  rw [add_token_atomic_state]
  exact valid_insert_if_absent t hv

theorem valid_add_tokens {e : Editor} (ts : List Token) (hv : MergesValid e) :
    MergesValid (add_tokens e ts).1 := by
  induction ts generalizing e with
  | nil => exact hv
  | cons t rest ih =>
    rw [add_tokens]
    exact ih (valid_add_token t hv)

theorem valid_remove_tokens {e : Editor} (ts : List Token) (hv : MergesValid e) :
    MergesValid (remove_tokens e ts).1 := by
  induction ts generalizing e with
  | nil => exact hv
  | cons t rest ih =>
    rw [remove_tokens]
    exact ih (valid_remove_token t hv)

theorem valid_shrink_loop {fuel count minId init : Nat} :
    ∀ (e : Editor) (roots : List Token) (acc : Nat), MergesValid e →
      MergesValid (shrink_loop fuel e count minId init roots acc).1 := by
  induction fuel with
  | zero => intro e roots acc hv; exact hv
  | succ n ih =>
    intro e roots acc hv
    rw [shrink_loop]
    by_cases hthr : count ≤ init - e.vocab.length
    · simpa [hthr]
    · simp only [hthr, if_false]
      cases hc : find_tokens_to_shrink e 1 minId with
      | nil => exact hv
      | cons c rest =>
        exact ih _ _ _ (valid_remove_token c.1 hv)

theorem valid_shrink {e : Editor} (count minId : Nat) (hv : MergesValid e) :
    MergesValid (shrink e count minId).1 :=
  valid_shrink_loop e [] 0 hv

theorem valid_apply_op {e : Editor} (op : EditOp) (hv : MergesValid e) :
    MergesValid (apply_op e op) := by
  cases op with
  | add t => exact valid_add_token t hv
  | addAtomic t => exact valid_add_token_atomic t hv
  | remove t => exact valid_remove_token t hv
  | doShrink c m => exact valid_shrink c m hv
  | addBatch ts => exact valid_add_tokens ts hv
  | removeBatch ts => exact valid_remove_tokens ts hv

theorem valid_apply_ops {e : Editor} (ops : List EditOp) (hv : MergesValid e) :
    MergesValid (apply_ops e ops) := by
  unfold apply_ops
  induction ops generalizing e with
  | nil => exact hv
  | cons op rest ih =>
    rw [List.foldl_cons]
    exact ih (valid_apply_op op hv)

theorem preserves_refl (e : Editor) : Preserves e e := fun _ _ h => h

theorem preserves_trans {e1 e2 e3 : Editor} (h12 : Preserves e1 e2)
    (h23 : Preserves e2 e3) : Preserves e1 e3 :=
  fun t i h => h23 t i (h12 t i h)

theorem preserves_insert_if_absent (e : Editor) (u : Token) :
    Preserves e (insert_if_absent e u) := by
  intro t i h
  unfold insert_if_absent
  by_cases hu : has_token e u = true
  · simpa [hu]
  · simp only [hu, Bool.false_eq_true, if_false]
    exact lookup_tok_append_some _ h

theorem preserves_append_merge (e : Editor) (l r : Token) :
    Preserves e (append_merge e l r) := fun _ _ h => h

theorem preserves_insert_chars (cs : List Char) :
    ∀ (e : Editor), Preserves e (insert_chars e cs) := by
  induction cs with
  | nil => intro e; exact preserves_refl e
  | cons c rest ih =>
    intro e
    exact preserves_trans (preserves_insert_if_absent e [c]) (ih _)

theorem preserves_chain_steps (t : Token) :
    ∀ (l : List Nat) (e : Editor), Preserves e (chain_steps t e l).1 := by
  intro l
  induction l with
  | nil => intro e; exact preserves_refl e
  | cons i rest ih =>
    intro e
    rw [chain_steps]
    exact preserves_trans
      (preserves_trans (preserves_insert_if_absent e (t.take (i + 1)))
        (preserves_append_merge _ _ _))
      (ih _)

theorem preserves_char_chain (e : Editor) (t : Token) :
    Preserves e (char_chain e t).1 := by
  unfold char_chain
  exact preserves_trans (preserves_insert_chars t e) (preserves_chain_steps t _ _)

theorem preserves_add_token (e : Editor) (t : Token) :
    Preserves e (add_token e t).1 := by
  unfold add_token
  by_cases ht : has_token e t = true
  · simp only [ht, if_true]
    exact preserves_refl e
  · simp only [ht, Bool.false_eq_true, if_false]
    by_cases hlen : t.length = 1
    · simp only [hlen, if_true]
      exact preserves_insert_if_absent e t
    · simp only [hlen, if_false]
      by_cases hk : 0 < best_pref_len e t
      · simp only [hk, if_true]
        by_cases hs : has_token e (t.drop (best_pref_len e t)) = true
        · simp only [hs, if_true]
          exact preserves_trans (preserves_insert_if_absent e t)
            (preserves_append_merge _ _ _)
        · simp only [hs]
          by_cases hslen : (t.drop (best_pref_len e t)).length = 1
          · simp only [hslen, if_true, Bool.false_eq_true, if_false]
            exact preserves_trans
              (preserves_trans (preserves_insert_if_absent e _)
                (preserves_insert_if_absent _ t))
              (preserves_append_merge _ _ _)
          · simp only [hslen, Bool.false_eq_true, if_false]
            exact preserves_char_chain e t
      · simp only [hk, if_false]
        exact preserves_char_chain e t

theorem preserves_add_tokens (ts : List Token) :
    ∀ (e : Editor), Preserves e (add_tokens e ts).1 := by
  induction ts with
  | nil => intro e; exact preserves_refl e
  | cons t rest ih =>
    intro e
    rw [add_tokens]
    exact preserves_trans (preserves_add_token e t) (ih _)

theorem stableF_refl (e : Editor) : StableF e e :=
  ⟨fun _ _ h => Or.inl h, fun _ h => h⟩

theorem stableF_trans {e1 e2 e3 : Editor} (h12 : StableF e1 e2)
    (h23 : StableF e2 e3) : StableF e1 e3 := by
  constructor
  · intro t i h
    rcases h12.1 t i h with h2 | h2
    · exact h23.1 t i h2
    · exact Or.inr (h23.2 t h2)
  · intro t h
    exact h23.2 t (h12.2 t h)

theorem stableF_remove_token (e : Editor) (t : Token) :
    StableF e (remove_token e t).1 := by
  by_cases ht : has_token e t = true
  · rw [remove_token_of_has ht]
    constructor
    · intro u i h
      show (lookup_tok (e.vocab.filter
          (fun kv => !mem_tok kv.1 (reach e.merges [t]))) u) = some i ∨ _
      rw [lookup_tok_filter (fun x => !mem_tok x (reach e.merges [t]))]
      by_cases hq : (!mem_tok u (reach e.merges [t])) = true
      · left; simp [hq, h]
      · right; simp [hq]
    · intro u h
      show (lookup_tok (e.vocab.filter
          (fun kv => !mem_tok kv.1 (reach e.merges [t]))) u) = none
      rw [lookup_tok_filter (fun x => !mem_tok x (reach e.merges [t]))]
      by_cases hq : (!mem_tok u (reach e.merges [t])) = true
      · simp [hq, h]
      · simp [hq]
  · have hnoop : remove_token e t = (e, none) := by
      unfold remove_token
      simp [ht]
    rw [hnoop]
    exact stableF_refl e

theorem stableF_remove_tokens (ts : List Token) :
    ∀ (e : Editor), StableF e (remove_tokens e ts).1 := by
  induction ts with
  | nil => intro e; exact stableF_refl e
  | cons t rest ih =>
    intro e
    rw [remove_tokens]
    exact stableF_trans (stableF_remove_token e t) (ih _)

theorem stableF_shrink_loop {count minId init : Nat} :
    ∀ (fuel : Nat) (e : Editor) (roots : List Token) (acc : Nat),
      StableF e (shrink_loop fuel e count minId init roots acc).1 := by
  intro fuel
  induction fuel with
  | zero => intro e roots acc; exact stableF_refl e
  | succ n ih =>
    intro e roots acc
    rw [shrink_loop]
    by_cases hthr : count ≤ init - e.vocab.length
    · simp only [hthr, if_true]
      exact stableF_refl e
    · simp only [hthr, if_false]
      cases hc : find_tokens_to_shrink e 1 minId with
      | nil => exact stableF_refl e
      | cons c rest =>
        exact stableF_trans (stableF_remove_token e c.1) (ih _ _ _)

theorem stable_apply_op (e : Editor) (op : EditOp) : Stable e (apply_op e op) := by
  cases op with
  | add t => exact fun u i h => Or.inl (preserves_add_token e t u i h)
  | addAtomic t =>
    intro u i h
    rw [apply_op, add_token_atomic_state]
    exact Or.inl (preserves_insert_if_absent e t u i h)
  | remove t => exact (stableF_remove_token e t).1
  | doShrink c m => exact (stableF_shrink_loop _ e [] 0).1
  | addBatch ts => exact fun u i h => Or.inl (preserves_add_tokens ts e u i h)
  | removeBatch ts => exact (stableF_remove_tokens ts e).1

theorem mem_ins_cand {x y : Token × Nat} {l : List (Token × Nat)}
    (h : x ∈ ins_cand y l) : x = y ∨ x ∈ l := by
  induction l with
  | nil => simpa [ins_cand] using h
  | cons z zs ih =>
    rw [ins_cand] at h
    by_cases hc : cand_before y z = true
    · simp only [hc, if_true] at h
      rcases List.mem_cons.mp h with h | h
      · exact Or.inl h
      · exact Or.inr h
    · simp only [hc, Bool.false_eq_true, if_false] at h
      rcases List.mem_cons.mp h with h | h
      · exact Or.inr (by simp [h])
      · rcases ih h with h | h
        · exact Or.inl h
        · exact Or.inr (List.mem_cons_of_mem _ h)

theorem mem_sort_cands {x : Token × Nat} {l : List (Token × Nat)}
    (h : x ∈ sort_cands l) : x ∈ l := by
  induction l with
  | nil => simp [sort_cands] at h
  | cons y ys ih =>
    rw [sort_cands] at h
    rcases mem_ins_cand h with h | h
    · simp [h]
    · exact List.mem_cons_of_mem _ (ih h)

theorem eligible_props {minId : Nat} {kv : Token × Nat}
    (h : eligible minId kv = true) :
    minId ≤ kv.2 ∧ is_special kv.1 = false ∧ kv.1.length ≠ 1 := by
  unfold eligible at h
  rcases Bool.and_eq_true_iff.mp h with ⟨h12, h3⟩
  rcases Bool.and_eq_true_iff.mp h12 with ⟨h1, h2⟩
  refine ⟨by simpa using h1, by simpa using h2, by simpa using h3⟩

theorem find_tokens_mem {e : Editor} {count minId : Nat}
    {c : Token × Nat × Nat} (h : c ∈ find_tokens_to_shrink e count minId) :
    ∃ kv, kv ∈ e.vocab ∧ eligible minId kv = true ∧
      c = (kv.1, kv.2, kv.1.length) := by
  unfold find_tokens_to_shrink at h
  have h1 := List.mem_of_mem_take h
  rcases List.mem_map.mp h1 with ⟨kv, hkv, hc⟩
  have h2 := mem_sort_cands hkv
  rcases List.mem_filter.mp h2 with ⟨hmem, helig⟩
  exact ⟨kv, hmem, helig, hc.symm⟩

theorem lookup_some_mem {v : List (Token × Nat)} {t : Token} {i : Nat}
    (h : lookup_tok v t = some i) : (t, i) ∈ v := by
  induction v with
  | nil => simp [lookup_tok] at h
  | cons kv rest ih =>
    rw [lookup_tok] at h
    by_cases hk : kv.1 = t
    · simp only [hk, if_true, Option.some.injEq] at h
      have : kv = (t, i) := by
        cases kv
        simp only at hk h
        simp [hk, h]
      rw [← this]
      exact List.mem_cons_self _ _
    · simp only [hk, if_false] at h
      exact List.mem_cons_of_mem _ (ih h)

theorem mem_lookup_isSome {v : List (Token × Nat)} {kv : Token × Nat}
    (h : kv ∈ v) : (lookup_tok v kv.1).isSome = true := by
  induction v with
  | nil => cases h
  | cons a rest ih =>
    rw [lookup_tok]
    by_cases hk : a.1 = kv.1
    · simp [hk]
    · rcases List.mem_cons.mp h with h | h
      · rw [h] at hk
        exact absurd rfl hk
      · simp only [hk, if_false]
        exact ih h

theorem filter_length_lt {l : List α} {p : α → Bool} {x : α}
    (hx : x ∈ l) (hp : p x = false) : (l.filter p).length < l.length := by
  induction l with
  | nil => cases hx
  | cons a as ih =>
    rcases List.mem_cons.mp hx with hx | hx
    · subst hx
      rw [List.filter_cons]
      simp only [hp, Bool.false_eq_true, if_false]
      have := List.length_filter_le p as
      simpa using Nat.lt_succ_of_le this
    · rw [List.filter_cons]
      by_cases hpa : p a = true
      · simp only [hpa, if_true]
        simpa using ih hx
      · have hpa' : p a = false := by
          cases hc : p a with
          | true => exact absurd hc hpa
          | false => rfl
        simp only [hpa', Bool.false_eq_true, if_false]
        exact Nat.lt_succ_of_lt (ih hx)

theorem remove_vocab_le (e : Editor) (t : Token) :
    (remove_token e t).1.vocab.length ≤ e.vocab.length := by
  by_cases ht : has_token e t = true
  · rw [remove_token_of_has ht]
    simpa using List.length_filter_le _ _
  · have hnoop : remove_token e t = (e, none) := by
      unfold remove_token
      simp [ht]
    rw [hnoop]

theorem remove_vocab_subset {e : Editor} {t : Token} {kv : Token × Nat}
    (h : kv ∈ (remove_token e t).1.vocab) : kv ∈ e.vocab := by
  by_cases ht : has_token e t = true
  · rw [remove_token_of_has ht] at h
    exact List.mem_of_mem_filter h
  · have hnoop : remove_token e t = (e, none) := by
      unfold remove_token
      simp [ht]
    rw [hnoop] at h
    exact h

theorem remove_root_strict {e : Editor} {t : Token}
    (ht : has_token e t = true) :
    (remove_token e t).1.vocab.length < e.vocab.length := by
  rw [remove_token_of_has ht]
  unfold has_token at ht
  rcases Option.isSome_iff_exists.mp ht with ⟨i, hi⟩
  have hmem : (t, i) ∈ e.vocab := lookup_some_mem hi
  have hpred : (!mem_tok ((t, i) : Token × Nat).1 (reach e.merges [t])) = false := by
    have : t ∈ reach e.merges [t] :=
      reach_mem e.merges (List.mem_singleton.mpr rfl)
    simp [(mem_tok_iff _ _).mpr this]
  simpa using filter_length_lt hmem hpred

theorem shrink_loop_vocab_le {count minId init : Nat} :
    ∀ (fuel : Nat) (e : Editor) (roots : List Token) (acc : Nat),
      (shrink_loop fuel e count minId init roots acc).1.vocab.length ≤
        e.vocab.length := by
  intro fuel
  induction fuel with
  | zero => intro e roots acc; exact Nat.le_refl _
  | succ n ih =>
    intro e roots acc
    rw [shrink_loop]
    by_cases hthr : count ≤ init - e.vocab.length
    · simp [hthr]
    · simp only [hthr, if_false]
      cases hc : find_tokens_to_shrink e 1 minId with
      | nil => exact Nat.le_refl _
      | cons c rest =>
        exact Nat.le_trans (ih _ _ _) (remove_vocab_le e c.1)

theorem shrink_loop_end {count minId init : Nat} :
    ∀ (fuel : Nat) (e : Editor) (roots : List Token) (acc : Nat),
      e.vocab.length < fuel →
      count ≤ init - (shrink_loop fuel e count minId init roots acc).1.vocab.length ∨
        find_tokens_to_shrink
          (shrink_loop fuel e count minId init roots acc).1 1 minId = [] := by
  intro fuel
  induction fuel with
  | zero => intro e roots acc h; omega
  | succ n ih =>
    intro e roots acc hfuel
    rw [shrink_loop]
    by_cases hthr : count ≤ init - e.vocab.length
    · rw [if_pos hthr]
      exact Or.inl hthr
    · rw [if_neg hthr]
      cases hc : find_tokens_to_shrink e 1 minId with
      | nil => exact Or.inr hc
      | cons c rest =>
        have hcmem : c ∈ find_tokens_to_shrink e 1 minId := by
          rw [hc]; exact List.mem_cons_self _ _
        rcases find_tokens_mem hcmem with ⟨kv, hkv, _, hceq⟩
        have hhas : has_token e c.1 = true := by
          rw [hceq]
          exact mem_lookup_isSome hkv
        have hstrict := remove_root_strict hhas
        exact ih _ _ _ (by omega)

theorem shrink_loop_roots {count minId init : Nat} (V : List (Token × Nat)) :
    ∀ (fuel : Nat) (e : Editor) (roots : List Token) (acc : Nat),
      (∀ kv ∈ e.vocab, kv ∈ V) →
      (∀ r ∈ roots, ∃ i, (r, i) ∈ V ∧ minId ≤ i ∧
        is_special r = false ∧ r.length ≠ 1) →
      ∀ r ∈ (shrink_loop fuel e count minId init roots acc).2.1,
        ∃ i, (r, i) ∈ V ∧ minId ≤ i ∧ is_special r = false ∧ r.length ≠ 1 := by
  intro fuel
  induction fuel with
  | zero => intro e roots acc _ hroots r hr; exact hroots r hr
  | succ n ih =>
    intro e roots acc hsub hroots r hr
    rw [shrink_loop] at hr
    by_cases hthr : count ≤ init - e.vocab.length
    · simp only [hthr, if_true] at hr
      exact hroots r hr
    · simp only [hthr, if_false] at hr
      cases hc : find_tokens_to_shrink e 1 minId with
      | nil =>
        rw [hc] at hr
        exact hroots r hr
      | cons c rest =>
        rw [hc] at hr
        refine ih _ _ _ ?_ ?_ r hr
        · intro kv hkv
          exact hsub kv (remove_vocab_subset hkv)
        · intro r' hr'
          rcases List.mem_append.mp hr' with hr' | hr'
          · exact hroots r' hr'
          · rcases List.mem_singleton.mp hr' with rfl
            have hcmem : c ∈ find_tokens_to_shrink e 1 minId := by
              rw [hc]; exact List.mem_cons_self _ _
            rcases find_tokens_mem hcmem with ⟨kv, hkv, helig, hceq⟩
            rcases eligible_props helig with ⟨h1, h2, h3⟩
            refine ⟨kv.2, ?_, h1, ?_, ?_⟩
            · have : (c.1, kv.2) = kv := by
                rw [hceq]
              rw [this]
              exact hsub kv hkv
            · rw [hceq]
              exact h2
            · rw [hceq]
              exact h3

theorem jlookup_append_some {l : List (String × Json)} {k : String} {v : Json}
    (l' : List (String × Json)) (h : jlookup l k = some v) :
    jlookup (l ++ l') k = some v := by
  induction l with
  | nil => simp [jlookup] at h
  | cons f rest ih =>
    rw [jlookup] at h
    by_cases hk : f.1 = k
    · simp only [hk, if_true] at h
      simp [jlookup, hk, h]
    · simp only [hk, if_false] at h
      simpa [jlookup, hk] using ih h

theorem jlookup_append_none {l : List (String × Json)} {k : String}
    (l' : List (String × Json)) (h : jlookup l k = none) :
    jlookup (l ++ l') k = jlookup l' k := by
  induction l with
  | nil => simp
  | cons f rest ih =>
    rw [jlookup] at h
    by_cases hk : f.1 = k
    · simp [hk] at h
    · simp only [hk, if_false] at h
      simpa [jlookup, hk] using ih h

theorem jlookup_none_keys {l : List (String × Json)} {k : String}
    (h : jlookup l k = none) : ∀ f ∈ l, f.1 ≠ k := by
  induction l with
  | nil => intro f hf; cases hf
  | cons g rest ih =>
    rw [jlookup] at h
    by_cases hk : g.1 = k
    · simp [hk] at h
    · simp only [hk, if_false] at h
      intro f hf
      rcases List.mem_cons.mp hf with hf | hf
      · rw [hf]; exact hk
      · exact ih h f hf

theorem drop_key_of_absent {l : List (String × Json)} {k : String}
    (h : ∀ f ∈ l, f.1 ≠ k) : drop_key l k = l := by
  unfold drop_key
  refine List.filter_eq_self.mpr ?_
  intro f hf
  have hne := h f hf
  simp [hne]

theorem asString_toList (l : List Char) : (l.asString).toList = l := rfl

theorem parse_vocab_round (v : List (Token × Nat)) :
    parse_vocab (v.map (fun kv => (kv.1.asString, Json.num (Int.ofNat kv.2)))) =
      some v := by
  induction v with
  | nil => rfl
  | cons kv rest ih =>
    rw [List.map_cons, parse_vocab]
    have hnn : (0 : Int) ≤ Int.ofNat kv.2 := Int.ofNat_zero_le kv.2
    rw [if_pos hnn, ih]
    show some (((List.asString kv.1).data, kv.2) :: rest) = some (kv :: rest)
    rfl

theorem parse_merges_round (ms : List (Token × Token)) :
    parse_merges (ms.map
      (fun m => Json.arr [Json.str m.1.asString, Json.str m.2.asString])) =
      some ms := by
  induction ms with
  | nil => rfl
  | cons m rest ih =>
    rw [List.map_cons, parse_merges]
    have hm : parse_merge
        (Json.arr [Json.str m.1.asString, Json.str m.2.asString]) =
        some m := rfl
    rw [hm, ih]
    rfl

/-- C6: round-trip — parsing the JSON emitted by `to_json` yields the same
editor: the same vocabulary mapping, the same merge sequence in the same
priority order, and every untouched document field preserved verbatim.  The
hypotheses say the editor is a well-formed document state: its retained
`model` fields carry `type = "BPE"` and no shadowing `vocab`/`merges` keys,
and its retained top-level fields carry no shadowing `model` key — which
holds for every editor built by `from_json`. -/
theorem c6_round_trip (e : Editor)
    (h1 : jlookup e.top_extra "model" = none)
    (h2 : jlookup e.model_extra "vocab" = none)
    (h3 : jlookup e.model_extra "merges" = none)
    (h4 : jlookup e.model_extra "type" = some (Json.str "BPE")) :
    from_json (to_json e) = Except.ok e := by
  obtain ⟨v, ms, me, te⟩ := e
  dsimp only at h1 h2 h3 h4
  unfold to_json
  dsimp only
  have hm1 : jlookup (te ++ [("model", Json.obj (me ++
      [("vocab", Json.obj (v.map
          (fun kv => (kv.1.asString, Json.num (Int.ofNat kv.2)))))
      , ("merges", Json.arr (ms.map
          (fun m => Json.arr [Json.str m.1.asString, Json.str m.2.asString])))]))])
      "model" = some (Json.obj (me ++
      [("vocab", Json.obj (v.map
          (fun kv => (kv.1.asString, Json.num (Int.ofNat kv.2)))))
      , ("merges", Json.arr (ms.map
          (fun m => Json.arr [Json.str m.1.asString, Json.str m.2.asString])))])) := by
    rw [jlookup_append_none _ h1]
    simp [jlookup]
  have hm2 : jlookup (me ++
      [("vocab", Json.obj (v.map
          (fun kv => (kv.1.asString, Json.num (Int.ofNat kv.2)))))
      , ("merges", Json.arr (ms.map
          (fun m => Json.arr [Json.str m.1.asString, Json.str m.2.asString])))])
      "type" = some (Json.str "BPE") :=
    jlookup_append_some _ h4
  have hm3 : jlookup (me ++
      [("vocab", Json.obj (v.map
          (fun kv => (kv.1.asString, Json.num (Int.ofNat kv.2)))))
      , ("merges", Json.arr (ms.map
          (fun m => Json.arr [Json.str m.1.asString, Json.str m.2.asString])))])
      "vocab" = some (Json.obj (v.map
          (fun kv => (kv.1.asString, Json.num (Int.ofNat kv.2))))) := by
    rw [jlookup_append_none _ h2]
    simp [jlookup]
  have hm4 : jlookup (me ++
      [("vocab", Json.obj (v.map
          (fun kv => (kv.1.asString, Json.num (Int.ofNat kv.2)))))
      , ("merges", Json.arr (ms.map
          (fun m => Json.arr [Json.str m.1.asString, Json.str m.2.asString])))])
      "merges" = some (Json.arr (ms.map
          (fun m => Json.arr [Json.str m.1.asString, Json.str m.2.asString]))) := by
    rw [jlookup_append_none _ h3]
    have hne : ("vocab" : String) ≠ "merges" := by decide
    simp [jlookup, hne]
  rw [from_json, hm1]
  dsimp only
  rw [hm2]
  dsimp only
  rw [if_pos rfl]
  rw [hm3, hm4]
  dsimp only
  rw [parse_vocab_round, parse_merges_round]
  dsimp only
  have hd1 : drop_key (drop_key (me ++
      [("vocab", Json.obj (v.map
          (fun kv => (kv.1.asString, Json.num (Int.ofNat kv.2)))))
      , ("merges", Json.arr (ms.map
          (fun m => Json.arr [Json.str m.1.asString, Json.str m.2.asString])))])
      "vocab") "merges" = me := by
    unfold drop_key
    rw [List.filter_append, List.filter_append]
    have he1 : (List.filter (fun f => !(f.1 == "vocab")) me) = me :=
      drop_key_of_absent (jlookup_none_keys h2)
    have he2 : (List.filter (fun f => !(f.1 == "merges")) me) = me :=
      drop_key_of_absent (jlookup_none_keys h3)
    rw [he1]
    rw [show (List.filter (fun (f : String × Json) => !(f.1 == "vocab"))
        [("vocab", Json.obj (v.map
            (fun kv => (kv.1.asString, Json.num (Int.ofNat kv.2)))))
        , ("merges", Json.arr (ms.map
            (fun m => Json.arr [Json.str m.1.asString, Json.str m.2.asString])))]) =
        [("merges", Json.arr (ms.map
            (fun m => Json.arr [Json.str m.1.asString, Json.str m.2.asString])))]
      from rfl]
    rw [he2]
    rw [show (List.filter (fun (f : String × Json) => !(f.1 == "merges"))
        [("merges", Json.arr (ms.map
            (fun m => Json.arr [Json.str m.1.asString, Json.str m.2.asString])))]) =
        [] from rfl]
    simp
  have hd2 : drop_key (te ++ [("model", Json.obj (me ++
      [("vocab", Json.obj (v.map
          (fun kv => (kv.1.asString, Json.num (Int.ofNat kv.2)))))
      , ("merges", Json.arr (ms.map
          (fun m => Json.arr [Json.str m.1.asString, Json.str m.2.asString])))]))])
      "model" = te := by
    unfold drop_key
    rw [List.filter_append]
    have he1 : (List.filter (fun f => !(f.1 == "model")) te) = te :=
      drop_key_of_absent (jlookup_none_keys h1)
    rw [he1]
    simp
  rw [hd1, hd2]

theorem add_token_of_has {e : Editor} {t : Token} (h : has_token e t = true) :
    add_token e t = (e, ⟨false, "already_exists", []⟩) := by
  unfold add_token
  simp [h]

theorem add_token_has_self {e : Editor} {t : Token} (hne : t ≠ []) :
    has_token (add_token e t).1 t = true := by
  unfold add_token
  by_cases ht : has_token e t = true
  · simp [ht]
  · have ht' : has_token e t = false := by
      cases hc : has_token e t with
      | true => exact absurd hc ht
      | false => rfl
    simp only [ht', Bool.false_eq_true, if_false]
    by_cases hlen : t.length = 1
    · simp only [hlen, if_true]
      exact has_token_insert_self e t
    · simp only [hlen, if_false]
      by_cases hk : 0 < best_pref_len e t
      · simp only [hk, if_true]
        by_cases hs : has_token e (t.drop (best_pref_len e t)) = true
        · simp only [hs, if_true]
          rw [has_token_append_merge]
          exact has_token_insert_self e t
        · simp only [hs]
          by_cases hslen : (t.drop (best_pref_len e t)).length = 1
          · simp only [hslen, if_true, Bool.false_eq_true, if_false]
            rw [has_token_append_merge]
            exact has_token_insert_self _ t
          · simp only [hslen, Bool.false_eq_true, if_false]
            exact char_chain_has_self e t hne
      · simp only [hk, if_false]
        exact char_chain_has_self e t hne

/-- C1: after any sequence of public mutations (`add_token`,
`add_token_atomic`, `remove_token`, `shrink` and their batch forms) applied
to an editor whose validator reports no invalid merge, the validator still
reports `invalid_count = 0`, and every merge `(a, b)` in the table has `a`,
`b` and `a++b` present in the vocabulary. -/
theorem c1_mutations_preserve_validity (e : Editor) (ops : List EditOp)
    (h : (validate_merges e).invalid_count = 0) :
    (validate_merges (apply_ops e ops)).invalid_count = 0 ∧
    ∀ m ∈ (apply_ops e ops).merges,
      has_token (apply_ops e ops) m.1 = true ∧
      has_token (apply_ops e ops) m.2 = true ∧
      has_token (apply_ops e ops) (m.1 ++ m.2) = true := by
  have hv : MergesValid e := (invalid_count_eq_zero_iff e).mp h
  have hv' : MergesValid (apply_ops e ops) := valid_apply_ops ops hv
  refine ⟨(invalid_count_eq_zero_iff _).mpr hv', ?_⟩
  intro m hm
  have hok := hv' m hm
  unfold merge_ok at hok
  rcases Bool.and_eq_true_iff.mp hok with ⟨h12, h3⟩
  rcases Bool.and_eq_true_iff.mp h12 with ⟨h1, h2⟩
  exact ⟨h1, h2, h3⟩

/-- Witness for C1 at the sample document with a removal followed by a
shrink. -/
theorem c1_witness :
    (validate_merges (apply_ops sample_editor
      [EditOp.remove ['a', 'b'], EditOp.doShrink 1 0])).invalid_count = 0 ∧
    ∀ m ∈ (apply_ops sample_editor
        [EditOp.remove ['a', 'b'], EditOp.doShrink 1 0]).merges,
      has_token (apply_ops sample_editor
        [EditOp.remove ['a', 'b'], EditOp.doShrink 1 0]) m.1 = true ∧
      has_token (apply_ops sample_editor
        [EditOp.remove ['a', 'b'], EditOp.doShrink 1 0]) m.2 = true ∧
      has_token (apply_ops sample_editor
        [EditOp.remove ['a', 'b'], EditOp.doShrink 1 0]) (m.1 ++ m.2) = true :=
  c1_mutations_preserve_validity sample_editor
    [EditOp.remove ['a', 'b'], EditOp.doShrink 1 0] (by decide)

/-- C2: for a removal root present in the vocabulary, `remove_token` returns
a result whose `removed_tokens` contains the root and is closed under the
dependency relation of the original merge table, and no surviving merge
references a removed token in any of its three roles. -/
theorem c2_remove_token_cascade (e : Editor) (t : Token)
    (ht : has_token e t = true) :
    ∃ res, (remove_token e t).2 = some res ∧
      res.root_token = t ∧
      t ∈ res.removed_tokens ∧
      DepClosed e.merges res.removed_tokens ∧
      ∀ m ∈ (remove_token e t).1.merges,
        m.1 ∉ res.removed_tokens ∧ m.2 ∉ res.removed_tokens ∧
        (m.1 ++ m.2) ∉ res.removed_tokens := by
  refine ⟨⟨t, reach e.merges [t]⟩, ?_, rfl, ?_, ?_, ?_⟩
  · rw [remove_token_of_has ht]
  · exact reach_mem e.merges (List.mem_singleton.mpr rfl)
  · exact reach_closed e.merges [t]
  · intro m hm
    have hm' : m ∈ (remove_token e t).1.merges := hm
    rw [remove_token_of_has ht] at hm'
    simp only at hm'
    rcases List.mem_filter.mp hm' with ⟨_, hpred⟩
    simp only [Bool.not_eq_true', Bool.or_eq_false_iff] at hpred
    rcases hpred with ⟨⟨h1, h2⟩, h3⟩
    refine ⟨?_, ?_, ?_⟩
    · intro hmem
      rw [(mem_tok_iff _ _).mpr hmem] at h1
      cases h1
    · intro hmem
      rw [(mem_tok_iff _ _).mpr hmem] at h2
      cases h2
    · intro hmem
      rw [(mem_tok_iff _ _).mpr hmem] at h3
      cases h3

/-- Witness for C2 at the sample document, removing the token `ab`. -/
theorem c2_witness :
    ∃ res, (remove_token sample_editor ['a', 'b']).2 = some res ∧
      res.root_token = ['a', 'b'] ∧
      ['a', 'b'] ∈ res.removed_tokens ∧
      DepClosed sample_editor.merges res.removed_tokens ∧
      ∀ m ∈ (remove_token sample_editor ['a', 'b']).1.merges,
        m.1 ∉ res.removed_tokens ∧ m.2 ∉ res.removed_tokens ∧
        (m.1 ++ m.2) ∉ res.removed_tokens :=
  c2_remove_token_cascade sample_editor ['a', 'b'] (by decide)

/-- C3: adding an absent single-character token succeeds with method
`single_char`, inserts the token with a fresh id and appends no merge. -/
theorem c3_add_single_char (e : Editor) (t : Token)
    (habs : has_token e t = false) (hlen : t.length = 1) :
    (add_token e t).2.added = true ∧
    (add_token e t).2.method = "single_char" ∧
    has_token (add_token e t).1 t = true ∧
    (add_token e t).1.merges = e.merges ∧
    (add_token e t).2.added_merges = [] ∧
    (add_token e t).1.vocab = e.vocab ++ [(t, fresh_id e.vocab)] := by
  have heq : add_token e t =
      (insert_if_absent e t, ⟨true, "single_char", []⟩) := by
    unfold add_token
    simp [habs, hlen]
  rw [heq]
  refine ⟨rfl, rfl, has_token_insert_self e t, insert_if_absent_merges e t, rfl, ?_⟩
  unfold insert_if_absent
  simp [habs]

/-- Witness for C3 at the sample document, adding the token `x`. -/
theorem c3_witness :
    (add_token sample_editor ['x']).2.added = true ∧
    (add_token sample_editor ['x']).2.method = "single_char" ∧
    has_token (add_token sample_editor ['x']).1 ['x'] = true ∧
    (add_token sample_editor ['x']).1.merges = sample_editor.merges ∧
    (add_token sample_editor ['x']).2.added_merges = [] ∧
    (add_token sample_editor ['x']).1.vocab =
      sample_editor.vocab ++ [(['x'], fresh_id sample_editor.vocab)] :=
  c3_add_single_char sample_editor ['x'] (by decide) (by decide)

/-- C4: for an absent token of length at least 2 whose longest proper prefix
`p = t.take k` is in the vocabulary and whose suffix `s = t.drop k` is in the
vocabulary, `add_token` reports method `longest_prefix`, inserts the token
with a fresh id and appends exactly the single merge `(p, s)` at the end of
the merge table. -/
theorem c4_add_longest_prefix_merge (e : Editor) (t : Token) (k : Nat)
    (habs : has_token e t = false) (hlen : 2 ≤ t.length)
    (hk0 : 0 < k) (hklen : k < t.length)
    (hp : has_token e (t.take k) = true)
    (hmax : ∀ j, j < t.length → k < j → has_token e (t.take j) = false)
    (hs : has_token e (t.drop k) = true) :
    (add_token e t).2.added = true ∧
    (add_token e t).2.method = "longest_prefix" ∧
    (add_token e t).2.added_merges = [(t.take k, t.drop k)] ∧
    (add_token e t).1.merges = e.merges ++ [(t.take k, t.drop k)] ∧
    (add_token e t).1.vocab = e.vocab ++ [(t, fresh_id e.vocab)] := by
  have hbp : best_pref_len e t = k := best_pref_eq hk0 hklen hp hmax
  have hlen1 : ¬ t.length = 1 := by omega
  have heq : add_token e t =
      (append_merge (insert_if_absent e t) (t.take k) (t.drop k),
       ⟨true, "longest_prefix", [(t.take k, t.drop k)]⟩) := by
    unfold add_token
    simp only [habs, Bool.false_eq_true, if_false, hlen1, hbp, hk0, if_true, hs]
  rw [heq]
  refine ⟨rfl, rfl, rfl, ?_, ?_⟩
  · show (insert_if_absent e t).merges ++ [(t.take k, t.drop k)] = _
    rw [insert_if_absent_merges]
  · show (insert_if_absent e t).vocab = _
    unfold insert_if_absent
    simp [habs]

/-- Witness for C4 at the sample document extended with `x`, adding `abx`
whose longest prefix in vocab is `ab` and whose suffix is `x`. -/
theorem c4_witness :
    ((add_token (add_token sample_editor ['x']).1 ['a', 'b', 'x']).2.added = true ∧
    (add_token (add_token sample_editor ['x']).1 ['a', 'b', 'x']).2.method =
      "longest_prefix" ∧
    (add_token (add_token sample_editor ['x']).1 ['a', 'b', 'x']).2.added_merges =
      [(['a', 'b', 'x'].take 2, ['a', 'b', 'x'].drop 2)] ∧
    (add_token (add_token sample_editor ['x']).1 ['a', 'b', 'x']).1.merges =
      (add_token sample_editor ['x']).1.merges ++
        [(['a', 'b', 'x'].take 2, ['a', 'b', 'x'].drop 2)] ∧
    (add_token (add_token sample_editor ['x']).1 ['a', 'b', 'x']).1.vocab =
      (add_token sample_editor ['x']).1.vocab ++
        [(['a', 'b', 'x'], fresh_id (add_token sample_editor ['x']).1.vocab)]) :=
  c4_add_longest_prefix_merge (add_token sample_editor ['x']).1 ['a', 'b', 'x'] 2
    (by decide) (by decide) (by decide) (by decide) (by decide)
    (by decide) (by decide)

/-- C5: `add_token` is idempotent — after adding a non-empty token, adding it
again reports `already_exists` with `added = false` and leaves the editor
state (vocabulary and merge table alike) unchanged. -/
theorem c5_add_token_idempotent (e : Editor) (t : Token) (hne : t ≠ []) :
    add_token (add_token e t).1 t =
      ((add_token e t).1, ⟨false, "already_exists", []⟩) :=
  add_token_of_has (add_token_has_self hne)

/-- Witness for C5 at the sample document, adding `xyz` twice. -/
theorem c5_witness :
    add_token (add_token sample_editor ['x', 'y', 'z']).1 ['x', 'y', 'z'] =
      ((add_token sample_editor ['x', 'y', 'z']).1,
       ⟨false, "already_exists", []⟩) :=
  c5_add_token_idempotent sample_editor ['x', 'y', 'z'] (by decide)

/-- C7: `add_token_atomic` never touches the merge table, is a pure no-op
returning `false` on a present token and inserts the token with a fresh id
returning `true` on an absent one. -/
theorem c7_add_token_atomic_contract (e : Editor) (t : Token) :
    (add_token_atomic e t).1.merges = e.merges ∧
    (has_token e t = true → add_token_atomic e t = (e, false)) ∧
    (has_token e t = false →
      (add_token_atomic e t).2 = true ∧
      (add_token_atomic e t).1.vocab = e.vocab ++ [(t, fresh_id e.vocab)]) := by
  by_cases ht : has_token e t = true
  · have heq : add_token_atomic e t = (e, false) := by
      unfold add_token_atomic
      simp [ht]
    refine ⟨by rw [heq], fun _ => heq, fun hcontra => ?_⟩
    rw [ht] at hcontra
    cases hcontra
  · have ht' : has_token e t = false := by
      cases hc : has_token e t with
      | true => exact absurd hc ht
      | false => rfl
    have heq : add_token_atomic e t =
        ({ e with vocab := e.vocab ++ [(t, fresh_id e.vocab)] }, true) := by
      unfold add_token_atomic
      simp [ht']
    refine ⟨by rw [heq], fun hcontra => absurd hcontra ht, fun _ => ?_⟩
    rw [heq]
    exact ⟨rfl, rfl⟩

/-- Witness for C7 at the sample document with the special token
`<special>`. -/
theorem c7_witness :
    (add_token_atomic sample_editor ['<', 's', '>']).1.merges =
      sample_editor.merges ∧
    (has_token sample_editor ['<', 's', '>'] = true →
      add_token_atomic sample_editor ['<', 's', '>'] = (sample_editor, false)) ∧
    (has_token sample_editor ['<', 's', '>'] = false →
      (add_token_atomic sample_editor ['<', 's', '>']).2 = true ∧
      (add_token_atomic sample_editor ['<', 's', '>']).1.vocab =
        sample_editor.vocab ++
          [(['<', 's', '>'], fresh_id sample_editor.vocab)]) :=
  c7_add_token_atomic_contract sample_editor ['<', 's', '>']

/-- Witness for C6 at the sample document. -/
theorem c6_witness :
    from_json (to_json sample_editor) = Except.ok sample_editor :=
  c6_round_trip sample_editor rfl rfl rfl rfl

/-- C8: `shrink(count, min_id)` never grows the vocabulary
(`final_vocab_size ≤ initial_vocab_size`); every root it chooses was a vocab
entry with id at least `min_id` that is neither special nor
single-character; and the loop stops exactly when the vocabulary has shrunk
by at least `count` tokens or no eligible candidate remains. -/
theorem c8_shrink_spec (e : Editor) (count minId : Nat) :
    (shrink e count minId).2.final_vocab_size ≤
      (shrink e count minId).2.initial_vocab_size ∧
    (∀ r ∈ (shrink e count minId).2.removed_roots,
      ∃ i, (r, i) ∈ e.vocab ∧ minId ≤ i ∧
        is_special r = false ∧ r.length ≠ 1) ∧
    (count ≤ (shrink e count minId).2.initial_vocab_size -
        (shrink e count minId).2.final_vocab_size ∨
      find_tokens_to_shrink (shrink e count minId).1 1 minId = []) := by
  refine ⟨?_, ?_, ?_⟩
  · exact shrink_loop_vocab_le (e.vocab.length + 1) e [] 0
  · intro r hr
    exact shrink_loop_roots e.vocab (e.vocab.length + 1) e [] 0
      (fun kv hkv => hkv) (fun r' hr' => absurd hr' (List.not_mem_nil r')) r hr
  · exact shrink_loop_end (e.vocab.length + 1) e [] 0 (Nat.lt_succ_self _)

/-- Witness for C8 at the sample document with `count = 1`, `min_id = 0`. -/
theorem c8_witness :
    (shrink sample_editor 1 0).2.final_vocab_size ≤
      (shrink sample_editor 1 0).2.initial_vocab_size ∧
    (∀ r ∈ (shrink sample_editor 1 0).2.removed_roots,
      ∃ i, (r, i) ∈ sample_editor.vocab ∧ 0 ≤ i ∧
        is_special r = false ∧ r.length ≠ 1) ∧
    (1 ≤ (shrink sample_editor 1 0).2.initial_vocab_size -
        (shrink sample_editor 1 0).2.final_vocab_size ∨
      find_tokens_to_shrink (shrink sample_editor 1 0).1 1 0 = []) :=
  c8_shrink_spec sample_editor 1 0

/-- C9: insertion allocates the smallest positive id not currently used in
the vocabulary (`fresh_id` is positive, unused and minimal among positive
unused ids, and an absent token is appended with exactly that id), and every
public mutation keeps the id of every surviving token unchanged — freed ids
are never reassigned to surviving tokens. -/
theorem c9_id_allocation (e : Editor) (t : Token) :
    (has_token e t = false →
      (insert_if_absent e t).vocab = e.vocab ++ [(t, fresh_id e.vocab)] ∧
      0 < fresh_id e.vocab ∧
      id_used e.vocab (fresh_id e.vocab) = false ∧
      (∀ m, 0 < m → id_used e.vocab m = false → fresh_id e.vocab ≤ m)) ∧
    (∀ (op : EditOp) (i j : Nat),
      lookup_tok e.vocab t = some i →
      lookup_tok (apply_op e op).vocab t = some j → j = i) := by
  constructor
  · intro habs
    refine ⟨?_, fresh_id_pos _, fresh_id_free _, fresh_id_min _⟩
    unfold insert_if_absent
    simp [habs]
  · intro op i j hi hj
    rcases stable_apply_op e op t i hi with h | h
    · rw [h] at hj
      exact ((Option.some.injEq _ _).mp hj).symm
    · rw [h] at hj
      cases hj

/-- Witness for C9 at the sample document with the token `x` and a removal
mutation. -/
theorem c9_witness :
    ((has_token sample_editor ['x'] = false →
      (insert_if_absent sample_editor ['x']).vocab =
        sample_editor.vocab ++ [(['x'], fresh_id sample_editor.vocab)] ∧
      0 < fresh_id sample_editor.vocab ∧
      id_used sample_editor.vocab (fresh_id sample_editor.vocab) = false ∧
      (∀ m, 0 < m → id_used sample_editor.vocab m = false →
        fresh_id sample_editor.vocab ≤ m)) ∧
    (∀ (op : EditOp) (i j : Nat),
      lookup_tok sample_editor.vocab ['x'] = some i →
      lookup_tok (apply_op sample_editor op).vocab ['x'] = some j → j = i)) :=
  c9_id_allocation sample_editor ['x']

/-- C10: at the Python binding surface a failed construction yields no
editor: an unreadable path raises `IOError`, and `from_json` raises
`ValueError` both on input that is not valid JSON and on a document whose
`model.type` is not exactly `"BPE"`. -/
theorem c10_py_binding_errors :
    py_load none = Except.error PyExc.ioError ∧
    py_from_json JsonText.malformed = Except.error PyExc.valueError ∧
    (∀ (fields mfields : List (String × Json)) (ty : String),
      jlookup fields "model" = some (Json.obj mfields) →
      jlookup mfields "type" = some (Json.str ty) → ty ≠ "BPE" →
      py_from_json (JsonText.wellFormed (Json.obj fields)) =
        Except.error PyExc.valueError) := by
  refine ⟨rfl, rfl, ?_⟩
  intro fields mfields ty hm hty hne
  unfold py_from_json parse_text
  have hfj : from_json (Json.obj fields) =
      Except.error LoadError.unsupportedModel := by
    rw [from_json, hm]
    dsimp only
    rw [hty]
    dsimp only
    rw [if_neg hne]
  show ((Except.ok (Json.obj fields)).bind from_json).mapError py_exc_of = _
  rw [Except.bind, hfj]
  rfl

/-- Witness for C10 on a WordPiece document. -/
theorem c10_witness :
    py_load none = Except.error PyExc.ioError ∧
    py_from_json JsonText.malformed = Except.error PyExc.valueError ∧
    py_from_json (JsonText.wellFormed (Json.obj
      [("model", Json.obj [("type", Json.str "WordPiece")])])) =
      Except.error PyExc.valueError := by
  refine ⟨c10_py_binding_errors.1, c10_py_binding_errors.2.1, ?_⟩
  exact c10_py_binding_errors.2.2
    [("model", Json.obj [("type", Json.str "WordPiece")])]
    [("type", Json.str "WordPiece")] "WordPiece" rfl rfl (by decide)

end BPEEdit
